import Mathlib

/-!
Verification development for the MLBlocks pipeline execution engine
(`mlblocks.MLPipeline` / `mlblocks.MLBlock`).

The repository ships the engine's documentation (advanced_usage/pipelines,
advanced_usage/hyperparameters, the tutorial notebooks) but the engine module
itself (`mlblocks/mlpipeline.py`) is not among the provided sources, so the
definitions below are modelled from the written specification and from the
behaviour documented in those in-repo documents.  Values flowing through the
Context are opaque to the engine (it never inspects them), so they are
embedded as natural numbers; the behaviour of each wrapped primitive is an
explicit semantic parameter (`BlockSem`).
-/

namespace MLBlocks

abbrev VarName := String

abbrev Value := Nat

/-- Context: the name-keyed value store threaded through one pipeline run,
embedded as an association list with Python-dict update semantics
(updating an existing key keeps its position, a new key is appended). -/
abbrev Context := List (VarName × Value)

/-- Lookup of a context variable (first matching key). -/
def ctxGet (ctx : Context) (n : VarName) : Option Value :=
  match ctx with
  | [] => none
  | (k, v) :: rest => if k = n then some v else ctxGet rest n

/-- Dict-style update: overwrite the value under `n`, or append it. -/
def ctxSet (ctx : Context) (n : VarName) (v : Value) : Context :=
  match ctx with
  | [] => [(n, v)]
  | (k, w) :: rest => if k = n then (n, v) :: rest else (k, w) :: ctxSet rest n v

/-- Merge a list of named values into a context, later entries overwriting. -/
def ctxMerge (ctx : Context) (kvs : List (VarName × Value)) : Context :=
  kvs.foldl (fun c kv => ctxSet c kv.1 kv.2) ctx

/-- Value of the most recent writer of `n` in a chronological write log. -/
def lastVal (log : List (VarName × Value)) (n : VarName) : Option Value :=
  match log with
  | [] => none
  | (k, v) :: rest =>
    match lastVal rest n with
    | some w => some w
    | none => if k = n then some v else none

/-- Generic association-list lookup used for per-block tables. -/
def alookup {α : Type} (l : List (String × α)) (k : String) : Option α :=
  match l with
  | [] => none
  | (k', v) :: rest => if k' = k then some v else alookup rest k

/-- Name remap: declared argument/output name to context variable name,
defaulting to the identity. -/
def remapName (m : List (VarName × VarName)) (n : VarName) : VarName :=
  match alookup m n with
  | some n' => n'
  | none => n

/-- Current counter value for a primitive name (0 when unseen). -/
def countOf (counts : List (String × Nat)) (p : String) : Nat :=
  match alookup counts p with
  | some c => c
  | none => 0

/-- Modelled from the spec: the block-naming rule of `MLPipeline._get_block_name`
(missing from the provided sources).  Each block is named
`{primitive-name}#{n}` where `n` is the 1-based count of occurrences of that
primitive so far, tracked by a running counter. -/
def assignNamesGo (counts : List (String × Nat)) : List String → List String
  | [] => []
  | p :: rest =>
    (p ++ "#" ++ toString (countOf counts p + 1)) ::
      assignNamesGo (ctxSet counts p (countOf counts p + 1)) rest

/-- Instance names assigned to an ordered primitive list at construction. -/
def blockNames (prims : List String) : List String :=
  assignNamesGo [] prims

/-- Count of occurrences of `p` in a list of primitive names. -/
def countOcc (l : List String) (p : String) : Nat :=
  match l with
  | [] => 0
  | q :: rest => (if q = p then 1 else 0) + countOcc rest p

/-- Primitive descriptor: the declarative description the engine consumes
(name, whether a fit phase is declared, argument and output names, default
hyperparameter values and tunable-hyperparameter metadata).  Tunable
metadata entries are opaque values here. -/
structure Primitive where
  name : String
  hasFit : Bool
  fitArgs : List VarName
  produceArgs : List VarName
  outputs : List VarName
  defaultHyperparameters : List (VarName × Value)
  defaultTunables : List (VarName × Value)
deriving Repr, DecidableEq

/-- Runtime semantics of a wrapped primitive: `fitF` maps fit-argument values
to a new internal state (or raises, carrying a numeric cause identifying the
original exception); `produceF` maps the internal state and produce-argument
values to the output values (or raises). -/
structure BlockSem where
  fitF : List Value → Except Nat (List Value)
  produceF : List Value → List Value → Except Nat (List Value)

/-- Block: the runtime wrapper around one primitive instance inside a
pipeline.  It owns the current hyperparameter values, the tunable metadata,
the (opaque) state of the underlying object, and the name remaps. -/
structure MLBlock where
  primitive : Primitive
  state : List Value
  hyperparameters : List (VarName × Value)
  tunable : List (VarName × Value)
  inputMap : List (VarName × VarName)
  outputMap : List (VarName × VarName)
deriving Repr, DecidableEq

/-- Execution phase of a block. -/
inductive Phase
  | fit
  | produce
deriving Repr, DecidableEq

/-- One observable engine event: a phase invoked on a named block. -/
structure Event where
  block : String
  phase : Phase
deriving Repr, DecidableEq

/-- Classification of a block-level failure: an argument-binding failure
naming the unresolvable argument, or an execution failure carrying the
wrapped component's own exception as the cause. -/
inductive ErrKind
  | binding (arg : VarName)
  | execution (cause : Nat)
deriving Repr, DecidableEq

/-- Error raised while running the block sequence, annotated with the
offending block's name and phase; it carries the context as mutated so far
and the event trace up to the failure. -/
structure RunError where
  block : String
  phase : Phase
  kind : ErrKind
  ctx : Context
  trace : List Event
deriving Repr, DecidableEq

/-- Successful result of running a block sequence: the updated blocks, the
final context, the accumulated event trace, the chronological write log,
and one context snapshot per executed block (the context as it stood right
after that block's produce merged its outputs), keyed by block name. -/
structure RunOk where
  blocks : List (String × MLBlock)
  ctx : Context
  trace : List Event
  writes : List (VarName × Value)
  snaps : List (String × Context)
deriving Repr, DecidableEq

/-- Whether the traversal is a `fit` run (fit then produce per block) or a
`predict` run (produce only). -/
inductive Mode
  | fit
  | predict
deriving Repr, DecidableEq

/-- Resolve declared argument names from the context through the block's
input remap; fails with the first argument that cannot be resolved. -/
def resolveArgs (ctx : Context) (m : List (VarName × VarName)) :
    List VarName → Except VarName (List Value)
  | [] => .ok []
  | a :: rest =>
    match ctxGet ctx (remapName m a) with
    | none => .error a
    | some v =>
      match resolveArgs ctx m rest with
      | .error b => .error b
      | .ok vs => .ok (v :: vs)

/-- Pair the declared output names (remapped) with the produced values. -/
def namedOutputs (b : MLBlock) (outs : List Value) : List (VarName × Value) :=
  (b.primitive.outputs.zip outs).map (fun nv => (remapName b.outputMap nv.1, nv.2))

/-- Outcome of one block step: the updated block, the new context, the events
emitted by this block and the writes it performed. -/
structure StepOk where
  block : MLBlock
  ctx : Context
  events : List Event
  writes : List (VarName × Value)
deriving Repr, DecidableEq

/-- Failure of one block step: the phase and kind of the failure plus the
events this block emitted before failing. -/
structure StepErr where
  phase : Phase
  kind : ErrKind
  events : List Event
deriving Repr, DecidableEq

/-- Modelled from the spec: one block of the traversal inside
`MLPipeline.fit` / `MLPipeline.predict` (`_fit_block` / `_produce_block`,
missing from the provided sources).  During a fit run, a block that declares
a fit phase is fit first; then (in both modes) the block is produced and its
named outputs are merged into the context, overwriting prior values. -/
def stepFit (sem : String → BlockSem) (mode : Mode) (nm : String) (b : MLBlock)
    (ctx : Context) : Except StepErr (MLBlock × List Event) :=
  if mode = Mode.fit ∧ b.primitive.hasFit then
    match resolveArgs ctx b.inputMap b.primitive.fitArgs with
    | .error a => .error ⟨Phase.fit, ErrKind.binding a, []⟩
    | .ok vals =>
      match (sem b.primitive.name).fitF vals with
      | .error c => .error ⟨Phase.fit, ErrKind.execution c, [⟨nm, Phase.fit⟩]⟩
      | .ok st => .ok ({ b with state := st }, [⟨nm, Phase.fit⟩])
  else
    .ok (b, [])

def stepBlock (sem : String → BlockSem) (mode : Mode) (nm : String) (b : MLBlock)
    (ctx : Context) : Except StepErr StepOk :=
  match stepFit sem mode nm b ctx with
  | .error e => .error e
  | .ok (b', evs) =>
    match resolveArgs ctx b'.inputMap b.primitive.produceArgs with
    | .error a => .error ⟨Phase.produce, ErrKind.binding a, evs⟩
    | .ok vals =>
      match (sem b.primitive.name).produceF b'.state vals with
      | .error c => .error ⟨Phase.produce, ErrKind.execution c, evs ++ [⟨nm, Phase.produce⟩]⟩
      | .ok outs =>
        .ok ⟨b', ctxMerge ctx (namedOutputs b' outs), evs ++ [⟨nm, Phase.produce⟩],
             namedOutputs b' outs⟩

/-- Modelled from the spec: the block traversal loop of `MLPipeline.fit` /
`MLPipeline.predict` (missing from the provided sources).  Blocks run
strictly in order; a failure aborts immediately, tagged with the offending
block's name and phase, leaving the context as mutated so far. -/
def runBlocks (sem : String → BlockSem) (mode : Mode) :
    List (String × MLBlock) → Context → List Event → List (VarName × Value) →
    Except RunError RunOk
  | [], ctx, tr, ws => .ok ⟨[], ctx, tr, ws, []⟩
  | (nm, b) :: rest, ctx, tr, ws =>
    match stepBlock sem mode nm b ctx with
    | .error e => .error ⟨nm, e.phase, e.kind, ctx, tr ++ e.events⟩
    | .ok st =>
      match runBlocks sem mode rest st.ctx (tr ++ st.events) (ws ++ st.writes) with
      | .error e => .error e
      | .ok r =>
        .ok ⟨(nm, st.block) :: r.blocks, r.ctx, r.trace, r.writes,
             (nm, st.ctx) :: r.snaps⟩

/-- Pipeline: the ordered, uniquely named block sequence plus the data kept
for serialization (the original primitive list and the construction-time
arguments). -/
structure MLPipeline where
  primitives : List String
  initParams : List (String × List (VarName × Value))
  blocks : List (String × MLBlock)
deriving Repr, DecidableEq

/-- Instance names of the pipeline's blocks, in order. -/
def MLPipeline.blockNameList (p : MLPipeline) : List String :=
  p.blocks.map Prod.fst

/-- Index lookup of an exact block name. -/
def indexOfName (names : List String) (s : String) : Option Nat :=
  match names with
  | [] => none
  | n :: rest =>
    if n = s then some 0
    else match indexOfName rest s with
      | some i => some (i + 1)
      | none => none

/-- Whether a string contains a dot character. -/
def hasDot (s : String) : Bool :=
  s.toList.contains '.'

/-- Split a character list at its last dot, returning the parts before and
after it (without the dot itself). -/
def splitLastDotAux : List Char → Option (List Char × List Char)
  | [] => none
  | c :: rest =>
    match splitLastDotAux rest with
    | some (pre, suf) => some (c :: pre, suf)
    | none => if c = '.' then some ([], rest) else none

/-- Split a string on its last dot into `{block-name}.{variable-name}`. -/
def splitLastDot (s : String) : Option (String × String) :=
  match splitLastDotAux s.toList with
  | some (pre, suf) => some (String.mk pre, String.mk suf)
  | none => none

/-- The `output_` argument accepted by `fit` / `predict`: an integer block
index, a string, or a list of strings. -/
inductive OutputArg
  | idx (i : Nat)
  | str (s : String)
  | strs (l : List String)
deriving Repr, DecidableEq

/-- The `start_` argument accepted by `fit` / `predict`: an integer block
index or an exact block name. -/
inductive StartArg
  | idx (i : Nat)
  | str (s : String)
deriving Repr, DecidableEq

/-- Resolved meaning of one output specification entry: either the whole
context after a block index, or one context variable available after a block
index. -/
inductive OutSpec
  | wholeCtx (stop : Nat)
  | var (stop : Nat) (v : VarName)
deriving Repr, DecidableEq

/-- Block index after which an output-spec entry is available. -/
def OutSpec.stopIndex : OutSpec → Nat
  | .wholeCtx i => i
  | .var i _ => i

/-- Read a list of context variables, failing when any is absent. -/
def getAll (ctx : Context) : List VarName → Option (List Value)
  | [] => some []
  | n :: rest =>
    match ctxGet ctx n with
    | none => none
    | some v =>
      match getAll ctx rest with
      | none => none
      | some vs => some (v :: vs)

/-- Modelled from the spec: interpretation of one string form of `output_`
(documented in advanced_usage/hyperparameters, "output_"; the implementation
is missing from the provided sources).  An exact block name means the whole
context after that block; a dot-free non-name means a plain context variable
extracted after the last block; otherwise the string is split on its last
dot into `{block_name}.{variable_name}`, and a `ValueError` is raised when
the part before the last dot is not an exact block name. -/
def parseOutputString (names : List String) (lastIdx : Nat) (s : String) :
    Except String OutSpec :=
  match indexOfName names s with
  | some i => .ok (OutSpec.wholeCtx i)
  | none =>
    if hasDot s then
      match splitLastDot s with
      | some (pre, suf) =>
        match indexOfName names pre with
        | some i => .ok (OutSpec.var i suf)
        | none => .error s
      | none => .error s
    else
      .ok (OutSpec.var lastIdx s)

/-- Resolved output plan for a whole `output_` argument. -/
inductive OutPlan
  | default
  | whole (stop : Nat)
  | single (stop : Nat) (v : VarName)
  | many (stop : Nat) (es : List (Nat × VarName))
deriving Repr, DecidableEq

/-- Parse every entry of a list `output_` specification. -/
def parseAll (names : List String) (lastIdx : Nat) :
    List String → Except String (List OutSpec)
  | [] => .ok []
  | s :: rest =>
    match parseOutputString names lastIdx s with
    | .error e => .error e
    | .ok sp =>
      match parseAll names lastIdx rest with
      | .error e => .error e
      | .ok sps => .ok (sp :: sps)

/-- Capture entries of a list output specification: each entry keeps the
index of the block after whose produce it is captured together with the
context variable name (none when an entry is a whole-context form, which
cannot appear inside a list). -/
def entriesOf : List OutSpec → Option (List (Nat × VarName))
  | [] => some []
  | sp :: rest =>
    match sp with
    | OutSpec.wholeCtx _ => none
    | OutSpec.var i v =>
      match entriesOf rest with
      | none => none
      | some es => some ((i, v) :: es)

/-- Modelled from the spec: resolution of the whole `output_` argument
(missing from the provided sources).  An integer is a zero-based block
index returning the entire context; a string follows `parseOutputString`; a
list of strings accumulates the named variables, running up to the furthest
block any entry needs ("up to the last step needed", tutorial 6). -/
def resolveOutput (names : List String) (lastIdx : Nat) :
    Option OutputArg → Except String OutPlan
  | none => .ok OutPlan.default
  | some (OutputArg.idx i) => .ok (OutPlan.whole i)
  | some (OutputArg.str s) =>
    match parseOutputString names lastIdx s with
    | .error e => .error e
    | .ok (OutSpec.wholeCtx i) => .ok (OutPlan.whole i)
    | .ok (OutSpec.var i v) => .ok (OutPlan.single i v)
  | some (OutputArg.strs l) =>
    match parseAll names lastIdx l with
    | .error e => .error e
    | .ok specs =>
      match entriesOf specs with
      | none => .error "whole-context entry inside an output list"
      | some es =>
        .ok (OutPlan.many (specs.foldl (fun m sp => max m sp.stopIndex) 0) es)

/-- Index of the last block a resolved output plan requires. -/
def OutPlan.stopIndex (lastIdx : Nat) : OutPlan → Nat
  | .default => lastIdx
  | .whole i => i
  | .single i _ => i
  | .many i _ => i

/-- Modelled from the spec: resolution of the `start_` argument (missing
from the provided sources): an integer index, or an exact block name. -/
def resolveStart (names : List String) : Option StartArg → Except String Nat
  | none => .ok 0
  | some (StartArg.idx i) => .ok i
  | some (StartArg.str s) =>
    match indexOfName names s with
    | some i => .ok i
    | none => .error s

/-- Value returned by a `fit` / `predict` call: nothing (fit default), the
whole context, a single variable, or an ordered tuple of variables. -/
inductive RunOutput
  | nothing
  | whole (ctx : Context)
  | single (v : Value)
  | many (vs : List Value)
deriving Repr, DecidableEq

/-- Error surfaced by a `fit` / `predict` call: a block-level run error, or a
`ValueError` (bad `output_` / `start_` specification or missing variable). -/
inductive PipelineError
  | run (e : RunError)
  | valueError (s : String)
deriving Repr, DecidableEq

/-- Modelled from the spec: the per-entry capture of
`_produce_block(block, block_name, context, output_variables, outputs, ...)`
and `_update_outputs` (missing from the provided sources).  Each requested
`{block}.{variable}` entry is filled from the context snapshot taken right
after the named block produced — the value the context held at that moment,
not the final context value. -/
def captureEntries (names : List String) (snaps : List (String × Context)) :
    List (Nat × VarName) → Option (List Value)
  | [] => some []
  | e :: rest =>
    match names.get? e.1 with
    | none => none
    | some bn =>
      match alookup snaps bn with
      | none => none
      | some c =>
        match ctxGet c e.2 with
        | none => none
        | some v =>
          match captureEntries names snaps rest with
          | none => none
          | some vs => some (v :: vs)

/-- Modelled from the spec: extraction of the return value once the
traversal has finished (missing from the provided sources).  With no
`output_`, `fit` returns nothing and `predict` returns the named outputs of
the last block, unwrapped when it declares exactly one output; a list of
`{block}.{variable}` entries is answered from the per-block snapshots. -/
def extractOutput (mode : Mode) (p : MLPipeline) (plan : OutPlan) (ctx : Context)
    (snaps : List (String × Context)) :
    Except PipelineError RunOutput :=
  match plan with
  | .default =>
    match mode with
    | .fit => .ok RunOutput.nothing
    | .predict =>
      match p.blocks.getLast? with
      | none => .ok RunOutput.nothing
      | some nb =>
        match getAll ctx (nb.2.primitive.outputs.map (remapName nb.2.outputMap)) with
        | none => .error (.valueError "missing output variable")
        | some [v] => .ok (RunOutput.single v)
        | some vs => .ok (RunOutput.many vs)
  | .whole _ => .ok (RunOutput.whole ctx)
  | .single _ v =>
    match ctxGet ctx v with
    | some w => .ok (RunOutput.single w)
    | none => .error (.valueError v)
  | .many _ es =>
    match captureEntries p.blockNameList snaps es with
    | some ws => .ok (RunOutput.many ws)
    | none => .error (.valueError "missing output variable")

/-- Result of a successful `fit` / `predict` call: the updated pipeline, the
final context, the event trace, the chronological write log, and the value
returned to the caller. -/
structure PipeResult where
  pipeline : MLPipeline
  ctx : Context
  trace : List Event
  writes : List (VarName × Value)
  output : RunOutput
deriving Repr, DecidableEq

/-- The slice of blocks a call executes: from the resolved start index up
through the resolved stop index (the loop skips `index < start_` and breaks
after the output block). -/
def executedSlice (blocks : List (String × MLBlock)) (s stop : Nat) :
    List (String × MLBlock) :=
  (blocks.drop s).take (stop + 1 - s)

/-- Modelled from the spec: the shared body of `MLPipeline.fit` and
`MLPipeline.predict` (missing from the provided sources).  The supplied
values seed the context, the blocks from `start_` through the block selected
by `output_` run in order, and the return value is extracted per the output
plan.  Blocks outside the executed slice are left untouched. -/
def MLPipeline.run (sem : String → BlockSem) (mode : Mode) (p : MLPipeline)
    (inputs : Context) (start? : Option StartArg) (output? : Option OutputArg) :
    Except PipelineError PipeResult :=
  let names := p.blockNameList
  let lastIdx := p.blocks.length - 1
  match resolveStart names start? with
  | .error s => .error (.valueError s)
  | .ok s =>
    match resolveOutput names lastIdx output? with
    | .error e => .error (.valueError e)
    | .ok plan =>
      let stop := plan.stopIndex lastIdx
      let slice := executedSlice p.blocks s stop
      match runBlocks sem mode slice inputs [] [] with
      | .error e => .error (.run e)
      | .ok r =>
        match extractOutput mode p plan r.ctx r.snaps with
        | .error e => .error e
        | .ok out =>
          .ok ⟨{ p with blocks := p.blocks.take s ++ r.blocks ++ p.blocks.drop (s + slice.length) },
               r.ctx, r.trace, r.writes, out⟩

/-- The `MLPipeline.fit` entry point (fit then produce per block). -/
def MLPipeline.fit (sem : String → BlockSem) (p : MLPipeline) (inputs : Context)
    (start? : Option StartArg) (output? : Option OutputArg) :
    Except PipelineError PipeResult :=
  MLPipeline.run sem Mode.fit p inputs start? output?

/-- The `MLPipeline.predict` entry point (produce only per block). -/
def MLPipeline.predict (sem : String → BlockSem) (p : MLPipeline) (inputs : Context)
    (start? : Option StartArg) (output? : Option OutputArg) :
    Except PipelineError PipeResult :=
  MLPipeline.run sem Mode.predict p inputs start? output?

/-- Merge a partial hyperparameter assignment into a block (the block-level
`set_hyperparameters`: merges `partial` into the current values). -/
def MLBlock.setHyper (b : MLBlock) (vals : List (VarName × Value)) : MLBlock :=
  { b with hyperparameters := ctxMerge b.hyperparameters vals }

/-- Nested hyperparameter view: `{block-name: {param-name: value}}`. -/
def MLPipeline.get_hyperparameters (p : MLPipeline) :
    List (String × List (VarName × Value)) :=
  p.blocks.map (fun nb => (nb.1, nb.2.hyperparameters))

/-- Nested hyperparameter update: fan the per-block sub-assignments out to
every named block, leaving unnamed blocks untouched. -/
def MLPipeline.set_hyperparameters (p : MLPipeline)
    (vals : List (String × List (VarName × Value))) : MLPipeline :=
  { p with blocks := p.blocks.map (fun nb =>
      (nb.1, nb.2.setHyper ((alookup vals nb.1).getD []))) }

/-- Flat hyperparameter view keyed by the `(block-name, param-name)` pair. -/
def MLPipeline.get_hyperparameters_flat (p : MLPipeline) :
    List ((String × VarName) × Value) :=
  p.blocks.flatMap (fun nb => nb.2.hyperparameters.map (fun kv => ((nb.1, kv.1), kv.2)))

/-- Entries of a flat assignment addressed to block `n`. -/
def flatFor (vals : List ((String × VarName) × Value)) (n : String) :
    List (VarName × Value) :=
  vals.filterMap (fun kv => if kv.1.1 = n then some (kv.1.2, kv.2) else none)

/-- Flat hyperparameter update. -/
def MLPipeline.set_hyperparameters_flat (p : MLPipeline)
    (vals : List ((String × VarName) × Value)) : MLPipeline :=
  { p with blocks := p.blocks.map (fun nb => (nb.1, nb.2.setHyper (flatFor vals nb.1))) }

/-- Serialized pipeline configuration (`to_dict` / `from_dict` payload). -/
structure PipelineDict where
  primitives : List String
  init_params : List (String × List (VarName × Value))
  hyperparameters : List (String × List (VarName × Value))
  tunable_hyperparameters : List (String × List (VarName × Value))
  input_names : List (String × List (VarName × VarName))
  output_names : List (String × List (VarName × VarName))
deriving Repr, DecidableEq

/-- Serialize a pipeline to its configuration dictionary. -/
def MLPipeline.to_dict (p : MLPipeline) : PipelineDict :=
  ⟨p.primitives, p.initParams,
   p.blocks.map (fun nb => (nb.1, nb.2.hyperparameters)),
   p.blocks.map (fun nb => (nb.1, nb.2.tunable)),
   p.blocks.map (fun nb => (nb.1, nb.2.inputMap)),
   p.blocks.map (fun nb => (nb.1, nb.2.outputMap))⟩

/-- Build one block while loading a configuration: values present in the
dictionary win, and anything absent falls back to the primitive annotation
(the registry `reg` stands for the out-of-scope primitive resolver). -/
def buildBlock (reg : String → Primitive) (d : PipelineDict) (nm prim : String) :
    MLBlock :=
  let pr := reg prim
  { primitive := pr
    state := []
    hyperparameters := (alookup d.hyperparameters nm).getD pr.defaultHyperparameters
    tunable := (alookup d.tunable_hyperparameters nm).getD pr.defaultTunables
    inputMap := (alookup d.input_names nm).getD []
    outputMap := (alookup d.output_names nm).getD [] }

/-- Load a pipeline from a configuration dictionary, re-deriving the block
instance names from the ordered primitive list. -/
def MLPipeline.from_dict (reg : String → Primitive) (d : PipelineDict) : MLPipeline :=
  { primitives := d.primitives
    initParams := d.init_params
    blocks := ((blockNames d.primitives).zip d.primitives).map
      (fun np => (np.1, buildBlock reg d np.1 np.2)) }

/-- Pipeline construction from an ordered primitive-descriptor list: blocks
are created in order and named by the counting rule. -/
def buildPipeline (prims : List Primitive) : MLPipeline :=
  { primitives := prims.map Primitive.name
    initParams := []
    blocks := ((blockNames (prims.map Primitive.name)).zip prims).map
      (fun np => (np.1,
        { primitive := np.2
          state := []
          hyperparameters := np.2.defaultHyperparameters
          tunable := np.2.defaultTunables
          inputMap := []
          outputMap := [] })) }

/-- Well-formedness of a pipeline as produced by construction: the block
names are the ones the counting rule derives from the primitive list, and
they are pairwise distinct. -/
def MLPipeline.WF (p : MLPipeline) : Prop :=
  p.blockNameList = blockNames p.primitives ∧ p.blockNameList.Nodup

/-- The events the specification prescribes for one reached block: its fit
phase (during a fit run, when the block declares one) followed by its
produce phase; during predict, the produce phase only. -/
def expectedEvents (mode : Mode) (nb : String × MLBlock) : List Event :=
  (if mode = Mode.fit ∧ nb.2.primitive.hasFit then [⟨nb.1, Phase.fit⟩] else []) ++
    [⟨nb.1, Phase.produce⟩]

/-- The event trace the specification prescribes for a traversal. -/
def expectedTrace (mode : Mode) (bs : List (String × MLBlock)) : List Event :=
  bs.flatMap (expectedEvents mode)

/-- The run-invariant signature of a named block: everything except the
underlying object's state. -/
def blockSig (nb : String × MLBlock) :
    String × Primitive × List (VarName × VarName) × List (VarName × VarName) ×
      List (VarName × Value) × List (VarName × Value) :=
  (nb.1, nb.2.primitive, nb.2.inputMap, nb.2.outputMap,
   nb.2.hyperparameters, nb.2.tunable)

/-- Current value of one hyperparameter of one named block. -/
def getHyperValue (p : MLPipeline) (n : String) (k : VarName) : Option Value :=
  match alookup (MLPipeline.get_hyperparameters p) n with
  | some l => ctxGet l k
  | none => none

/-- Unwrap a successful call result (with an inert fallback). -/
def okOr (x : Except PipelineError PipeResult) : PipeResult :=
  match x with
  | .ok r => r
  | .error _ => ⟨⟨[], [], []⟩, [], [], [], RunOutput.nothing⟩

/-- Unwrap a failed call result (with an inert fallback). -/
def errOr (x : Except PipelineError PipeResult) : PipelineError :=
  match x with
  | .error e => e
  | .ok _ => .valueError ""

/-- Unwrap a failed traversal result (with an inert fallback). -/
def runErrOr (x : Except RunError RunOk) : RunError :=
  match x with
  | .error e => e
  | .ok _ => ⟨"", Phase.fit, ErrKind.binding "", [], []⟩

/-- Unwrap a successful traversal result (with an inert fallback). -/
def runOkOr (x : Except RunError RunOk) : RunOk :=
  match x with
  | .ok r => r
  | .error _ => ⟨[], [], [], [], []⟩

/-! Concrete primitives, semantics and pipelines used to witness the
theorems on explicit inputs. -/

/-- Example class-kind primitive with a declared fit phase. -/
def primA : Primitive :=
  ⟨"A", true, ["X", "y"], ["X"], ["X"], [("a1", 1)], [("t1", 5)]⟩

/-- Example function-kind primitive (no fit phase). -/
def primB : Primitive :=
  ⟨"B", false, [], ["X"], ["X"], [("b1", 2)], []⟩

/-- Example estimator-like primitive producing the prediction variable. -/
def primC : Primitive :=
  ⟨"C", true, ["X", "y"], ["X"], ["y"], [], []⟩

/-- Example primitive whose name contains a dot, as real primitive paths
do. -/
def primDotted : Primitive :=
  ⟨"lib.Prim", false, [], ["X"], ["X"], [], []⟩

/-- Example semantics for the primitives above: fitting records the fit
inputs as the state, producing computes arithmetic on the inputs. -/
def semEx : String → BlockSem := fun n =>
  if n = "A" then
    ⟨fun vs => .ok vs, fun st vs => .ok [vs.foldl (fun a b => a + b) st.length + 1]⟩
  else if n = "B" then
    ⟨fun _ => .ok [], fun _ vs => .ok [vs.foldl (fun a b => a + b) 0 * 2]⟩
  else
    ⟨fun vs => .ok vs,
     fun st vs => .ok [vs.foldl (fun a b => a + b) 0 + st.foldl (fun a b => a + b) 0]⟩

/-- Semantics in which primitive `B` raises (cause 42) when produced. -/
def semErr : String → BlockSem := fun n =>
  if n = "B" then ⟨fun vs => .ok vs, fun _ _ => .error 42⟩ else semEx n

/-- Example three-block pipeline `[A, B, C]`. -/
def pEx : MLPipeline := buildPipeline [primA, primB, primC]

/-- Example initial data for `pEx`. -/
def insEx : Context := [("X", 10), ("y", 3)]

/-- Example one-block pipeline whose single block name contains a dot. -/
def pDot : MLPipeline := buildPipeline [primDotted]

/-- Unwrap a run-level error surfaced by a call (with an inert fallback). -/
def runErrOf (x : Except PipelineError PipeResult) : RunError :=
  match x with
  | .error (.run e) => e
  | _ => ⟨"", Phase.fit, ErrKind.binding "", [], []⟩

/-- Unwrap a failed block step (with an inert fallback). -/
def stepErrOr (x : Except StepErr StepOk) : StepErr :=
  match x with
  | .error e => e
  | .ok _ => ⟨Phase.fit, ErrKind.binding "", []⟩

/-- The block `B#1` of `pEx` as constructed. -/
def blockBEx : MLBlock := ⟨primB, [], [("b1", 2)], [], [], []⟩

end MLBlocks

deriving instance DecidableEq for Except

namespace MLBlocks

/-! Basic lemmas about the context store. -/

theorem ctxGet_ctxSet_self (c : Context) (n : VarName) (v : Value) :
    ctxGet (ctxSet c n v) n = some v := by
  induction c with
  | nil => simp [ctxSet, ctxGet]
  | cons kv rest ih =>
    obtain ⟨k, w⟩ := kv
    by_cases h : k = n
    · simp [ctxSet, ctxGet, h]
    · simp [ctxSet, ctxGet, h, ih]

theorem ctxGet_ctxSet_ne (c : Context) (n m : VarName) (v : Value) (h : m ≠ n) :
    ctxGet (ctxSet c n v) m = ctxGet c m := by
  induction c with
  | nil => simp [ctxSet, ctxGet, Ne.symm h]
  | cons kv rest ih =>
    obtain ⟨k, w⟩ := kv
    by_cases hk : k = n
    · subst hk
      simp [ctxSet, ctxGet, Ne.symm h]
    · by_cases hm : k = m
      · simp [ctxSet, ctxGet, hk, hm, h]
      · simp [ctxSet, ctxGet, hk, hm, ih]

theorem ctxSet_of_ctxGet_eq (c : Context) (n : VarName) (v : Value)
    (h : ctxGet c n = some v) : ctxSet c n v = c := by
  induction c with
  | nil => simp [ctxGet] at h
  | cons kv rest ih =>
    obtain ⟨k, w⟩ := kv
    by_cases hk : k = n
    · subst hk
      simp [ctxGet] at h
      simp [ctxSet, h]
    · simp [ctxGet, hk] at h
      simp [ctxSet, hk, ih h]

theorem lastVal_append (a b : List (VarName × Value)) (n : VarName) :
    lastVal (a ++ b) n =
      (match lastVal b n with
       | some w => some w
       | none => lastVal a n) := by
  induction a with
  | nil =>
    cases h : lastVal b n <;> simp [lastVal, h]
  | cons kv rest ih =>
    obtain ⟨k, v⟩ := kv
    simp only [List.cons_append, lastVal, List.append_eq]
    rw [ih]
    cases h : lastVal b n <;> cases h' : lastVal rest n <;> simp [h, h']

theorem ctxGet_ctxMerge (c : Context) (ws : List (VarName × Value)) (n : VarName) :
    ctxGet (ctxMerge c ws) n =
      (match lastVal ws n with
       | some v => some v
       | none => ctxGet c n) := by
  induction ws generalizing c with
  | nil => simp [ctxMerge, lastVal]
  | cons kv rest ih =>
    obtain ⟨k, v⟩ := kv
    show ctxGet (ctxMerge (ctxSet c k v) rest) n = _
    rw [ih]
    cases h : lastVal rest n with
    | some w => simp [lastVal, h]
    | none =>
      by_cases hk : k = n
      · subst hk
        simp [lastVal, h, ctxGet_ctxSet_self]
      · simp [lastVal, h, hk, ctxGet_ctxSet_ne c k n v (Ne.symm hk)]

theorem alookup_ctxSet_self (l : List (String × Nat)) (k : String) (v : Nat) :
    alookup (ctxSet l k v) k = some v := by
  induction l with
  | nil => simp [ctxSet, alookup]
  | cons kv rest ih =>
    obtain ⟨k', w⟩ := kv
    by_cases h : k' = k
    · simp [ctxSet, alookup, h]
    · simp [ctxSet, alookup, h, ih]

theorem alookup_ctxSet_ne (l : List (String × Nat)) (k k' : String) (v : Nat)
    (h : k' ≠ k) : alookup (ctxSet l k v) k' = alookup l k' := by
  induction l with
  | nil => simp [ctxSet, alookup, h.symm]
  | cons kv rest ih =>
    obtain ⟨k₀, w⟩ := kv
    by_cases hk : k₀ = k
    · subst hk
      simp [ctxSet, alookup, h.symm]
    · by_cases hm : k₀ = k'
      · simp [ctxSet, alookup, hk, hm, h]
      · simp [ctxSet, alookup, hk, hm, ih]

/-! Lemmas about one block step and the traversal loop. -/

theorem stepFit_ok (sem : String → BlockSem) (mode : Mode) (nm : String)
    (b : MLBlock) (ctx : Context) (b' : MLBlock) (evs : List Event)
    (h : stepFit sem mode nm b ctx = .ok (b', evs)) :
    evs = (if mode = Mode.fit ∧ b.primitive.hasFit then [⟨nm, Phase.fit⟩] else []) ∧
    b'.primitive = b.primitive ∧ b'.inputMap = b.inputMap ∧
    b'.outputMap = b.outputMap ∧ b'.hyperparameters = b.hyperparameters ∧
    b'.tunable = b.tunable := by
  unfold stepFit at h
  split at h
  case isTrue hc =>
    split at h
    · simp at h
    · split at h
      · simp at h
      · simp only [Except.ok.injEq, Prod.mk.injEq] at h
        obtain ⟨hb, he⟩ := h
        subst hb
        subst he
        simp [hc]
  case isFalse hc =>
    simp only [Except.ok.injEq, Prod.mk.injEq] at h
    obtain ⟨hb, he⟩ := h
    subst hb
    subst he
    simp [hc]

theorem stepBlock_ok (sem : String → BlockSem) (mode : Mode) (nm : String)
    (b : MLBlock) (ctx : Context) (st : StepOk)
    (h : stepBlock sem mode nm b ctx = .ok st) :
    st.events =
      (if mode = Mode.fit ∧ b.primitive.hasFit then [⟨nm, Phase.fit⟩] else []) ++
        [⟨nm, Phase.produce⟩] ∧
    st.ctx = ctxMerge ctx st.writes ∧
    st.block.primitive = b.primitive ∧ st.block.inputMap = b.inputMap ∧
    st.block.outputMap = b.outputMap ∧
    st.block.hyperparameters = b.hyperparameters ∧ st.block.tunable = b.tunable := by
  unfold stepBlock at h
  cases hf : stepFit sem mode nm b ctx with
  | error e => rw [hf] at h; simp at h
  | ok be =>
    obtain ⟨b', evs⟩ := be
    rw [hf] at h
    dsimp only at h
    obtain ⟨hev, hsig⟩ := stepFit_ok sem mode nm b ctx b' evs hf
    cases hra : resolveArgs ctx b'.inputMap b.primitive.produceArgs with
    | error a => rw [hra] at h; simp at h
    | ok vals =>
      rw [hra] at h
      dsimp only at h
      cases hp : (sem b.primitive.name).produceF b'.state vals with
      | error c => rw [hp] at h; simp at h
      | ok outs =>
        rw [hp] at h
        simp only [Except.ok.injEq] at h
        subst h
        refine ⟨by simp [hev], rfl, hsig.1, hsig.2.1, hsig.2.2.1, hsig.2.2.2.1, hsig.2.2.2.2⟩

theorem runBlocks_acc (sem : String → BlockSem) (mode : Mode)
    (bs : List (String × MLBlock)) (ctx : Context) (tr : List Event)
    (ws : List (VarName × Value)) :
    runBlocks sem mode bs ctx tr ws =
      match runBlocks sem mode bs ctx [] [] with
      | .ok r => .ok ⟨r.blocks, r.ctx, tr ++ r.trace, ws ++ r.writes, r.snaps⟩
      | .error e => .error ⟨e.block, e.phase, e.kind, e.ctx, tr ++ e.trace⟩ := by
  induction bs generalizing ctx tr ws with
  | nil => simp [runBlocks]
  | cons nb rest ih =>
    obtain ⟨nm, b⟩ := nb
    simp only [runBlocks]
    cases hs : stepBlock sem mode nm b ctx with
    | error e => simp
    | ok st =>
      dsimp only
      rw [ih st.ctx (tr ++ st.events) (ws ++ st.writes),
          ih st.ctx ([] ++ st.events) ([] ++ st.writes)]
      cases hr : runBlocks sem mode rest st.ctx [] [] with
      | error e => simp
      | ok r => simp

theorem runBlocks_append (sem : String → BlockSem) (mode : Mode)
    (xs ys : List (String × MLBlock)) (ctx : Context) (tr : List Event)
    (ws : List (VarName × Value)) :
    runBlocks sem mode (xs ++ ys) ctx tr ws =
      match runBlocks sem mode xs ctx tr ws with
      | .error e => .error e
      | .ok r =>
        match runBlocks sem mode ys r.ctx r.trace r.writes with
        | .error e => .error e
        | .ok r' =>
          .ok ⟨r.blocks ++ r'.blocks, r'.ctx, r'.trace, r'.writes,
               r.snaps ++ r'.snaps⟩ := by
  induction xs generalizing ctx tr ws with
  | nil =>
    cases hr : runBlocks sem mode ys ctx tr ws with
    | error e => simp [runBlocks, hr]
    | ok r => simp [runBlocks, hr]
  | cons nb rest ih =>
    obtain ⟨nm, b⟩ := nb
    simp only [List.cons_append, runBlocks]
    cases hs : stepBlock sem mode nm b ctx with
    | error e => simp
    | ok st =>
      dsimp only
      simp only [List.append_eq]
      rw [ih st.ctx (tr ++ st.events) (ws ++ st.writes)]
      cases hr : runBlocks sem mode rest st.ctx (tr ++ st.events) (ws ++ st.writes) with
      | error e => simp
      | ok r =>
        cases hr' : runBlocks sem mode ys r.ctx r.trace r.writes with
        | error e => simp [hr']
        | ok r' => simp [hr']

theorem runBlocks_ok_spec (sem : String → BlockSem) (mode : Mode)
    (bs : List (String × MLBlock)) (ctx : Context) (tr : List Event)
    (ws : List (VarName × Value)) (r : RunOk)
    (h : runBlocks sem mode bs ctx tr ws = .ok r) :
    r.trace = tr ++ expectedTrace mode bs ∧
    r.blocks.map blockSig = bs.map blockSig ∧
    ∃ ws', r.writes = ws ++ ws' ∧
      ∀ n, ctxGet r.ctx n =
        (match lastVal ws' n with
         | some v => some v
         | none => ctxGet ctx n) := by
  induction bs generalizing ctx tr ws r with
  | nil =>
    simp only [runBlocks, Except.ok.injEq] at h
    subst h
    refine ⟨by simp [expectedTrace], by simp, [], by simp, fun n => by simp [lastVal]⟩
  | cons nb rest ih =>
    obtain ⟨nm, b⟩ := nb
    simp only [runBlocks] at h
    cases hs : stepBlock sem mode nm b ctx with
    | error e => rw [hs] at h; simp at h
    | ok st =>
      rw [hs] at h
      dsimp only at h
      cases hr : runBlocks sem mode rest st.ctx (tr ++ st.events) (ws ++ st.writes) with
      | error e => rw [hr] at h; simp at h
      | ok r2 =>
        rw [hr] at h
        simp only [Except.ok.injEq] at h
        subst h
        obtain ⟨hev, hctx, hsig⟩ := stepBlock_ok sem mode nm b ctx st hs
        obtain ⟨htr, hbl, ws2, hws, hget⟩ := ih st.ctx (tr ++ st.events) (ws ++ st.writes) r2 hr
        refine ⟨?_, ?_, st.writes ++ ws2, ?_, ?_⟩
        · rw [htr, hev]
          simp [expectedTrace, expectedEvents, List.append_assoc]
        · show ((nm, st.block) :: r2.blocks).map blockSig = ((nm, b) :: rest).map blockSig
          simp only [List.map_cons, hbl, List.cons.injEq, and_true]
          simp [blockSig, hsig.1, hsig.2.1, hsig.2.2.1, hsig.2.2.2.1, hsig.2.2.2.2]
        · rw [hws]
          simp [List.append_assoc]
        · intro n
          rw [hget n]
          rw [lastVal_append]
          cases h2 : lastVal ws2 n with
          | some v => simp
          | none =>
            simp only
            rw [hctx, ctxGet_ctxMerge]

theorem stepFit_error_events (sem : String → BlockSem) (mode : Mode) (nm : String)
    (b : MLBlock) (ctx : Context) (se : StepErr)
    (h : stepFit sem mode nm b ctx = .error se) :
    ∀ ev ∈ se.events, ev.block = nm := by
  unfold stepFit at h
  split at h
  · split at h
    · simp only [Except.error.injEq] at h
      subst h
      simp
    · split at h
      · simp only [Except.error.injEq] at h
        subst h
        simp
      · simp at h
  · simp at h

theorem stepBlock_error_events (sem : String → BlockSem) (mode : Mode) (nm : String)
    (b : MLBlock) (ctx : Context) (se : StepErr)
    (h : stepBlock sem mode nm b ctx = .error se) :
    ∀ ev ∈ se.events, ev.block = nm := by
  unfold stepBlock at h
  cases hf : stepFit sem mode nm b ctx with
  | error e0 =>
    rw [hf] at h
    simp only [Except.error.injEq] at h
    subst h
    exact stepFit_error_events sem mode nm b ctx _ hf
  | ok be =>
    obtain ⟨b', evs⟩ := be
    rw [hf] at h
    dsimp only at h
    obtain ⟨hev, _⟩ := stepFit_ok sem mode nm b ctx b' evs hf
    cases hra : resolveArgs ctx b'.inputMap b.primitive.produceArgs with
    | error a =>
      rw [hra] at h
      simp only [Except.error.injEq] at h
      subst h
      intro ev hmem
      rw [hev] at hmem
      split at hmem
      · simp at hmem
        rw [hmem]
      · simp at hmem
    | ok vals =>
      rw [hra] at h
      dsimp only at h
      cases hp : (sem b.primitive.name).produceF b'.state vals with
      | error c =>
        rw [hp] at h
        simp only [Except.error.injEq] at h
        subst h
        intro ev hmem
        simp only [List.mem_append] at hmem
        rcases hmem with hmem | hmem
        · rw [hev] at hmem
          split at hmem
          · simp at hmem
            rw [hmem]
          · simp at hmem
        · simp at hmem
          rw [hmem]
      | ok outs =>
        rw [hp] at h
        simp at h

theorem runBlocks_error_spec (sem : String → BlockSem) (mode : Mode)
    (bs : List (String × MLBlock)) (ctx : Context) (tr : List Event)
    (ws : List (VarName × Value)) (e : RunError)
    (h : runBlocks sem mode bs ctx tr ws = .error e) :
    ∃ k, ∃ hk : k < bs.length, ∃ r : RunOk,
      runBlocks sem mode (bs.take k) ctx tr ws = .ok r ∧
      e.block = (bs.get ⟨k, hk⟩).1 ∧
      e.ctx = r.ctx ∧
      ∃ evs, e.trace = r.trace ++ evs ∧ (∀ ev ∈ evs, ev.block = e.block) ∧
        stepBlock sem mode (bs.get ⟨k, hk⟩).1 (bs.get ⟨k, hk⟩).2 r.ctx =
          .error ⟨e.phase, e.kind, evs⟩ := by
  induction bs generalizing ctx tr ws with
  | nil => simp [runBlocks] at h
  | cons nb rest ih =>
    obtain ⟨nm, b⟩ := nb
    simp only [runBlocks] at h
    cases hs : stepBlock sem mode nm b ctx with
    | error se =>
      rw [hs] at h
      simp only [Except.error.injEq] at h
      subst h
      refine ⟨0, by simp, ⟨[], ctx, tr, ws, []⟩, by simp [runBlocks], rfl, rfl,
        se.events, rfl, ?_, ?_⟩
      · intro ev hev
        have := stepBlock_error_events sem mode nm b ctx se hs ev hev
        exact this
      · simpa using hs
    | ok st =>
      rw [hs] at h
      dsimp only at h
      cases hr : runBlocks sem mode rest st.ctx (tr ++ st.events) (ws ++ st.writes) with
      | ok r2 => rw [hr] at h; simp at h
      | error e2 =>
        rw [hr] at h
        simp only [Except.error.injEq] at h
        subst h
        obtain ⟨k, hk, r, hrun, hbl, hctx, evs, htr, hevb, hstep⟩ :=
          ih st.ctx (tr ++ st.events) (ws ++ st.writes) hr
        refine ⟨k + 1, by simpa using Nat.succ_lt_succ hk,
          ⟨(nm, st.block) :: r.blocks, r.ctx, r.trace, r.writes,
           (nm, st.ctx) :: r.snaps⟩, ?_, hbl, hctx, evs, htr, hevb, hstep⟩
        simp only [List.take_succ_cons, runBlocks, hs]
        rw [hrun]

theorem stepBlock_execution_cause (sem : String → BlockSem) (mode : Mode)
    (nm : String) (b : MLBlock) (ctx : Context) (se : StepErr) (c : Nat)
    (h : stepBlock sem mode nm b ctx = .error se) (hk : se.kind = ErrKind.execution c) :
    (se.phase = Phase.fit →
      ∃ vals, resolveArgs ctx b.inputMap b.primitive.fitArgs = .ok vals ∧
        (sem b.primitive.name).fitF vals = .error c) ∧
    (se.phase = Phase.produce →
      ∃ st vals, resolveArgs ctx b.inputMap b.primitive.produceArgs = .ok vals ∧
        (sem b.primitive.name).produceF st vals = .error c) := by
  unfold stepBlock at h
  cases hf : stepFit sem mode nm b ctx with
  | error e0 =>
    rw [hf] at h
    simp only [Except.error.injEq] at h
    subst h
    unfold stepFit at hf
    split at hf
    · cases hra : resolveArgs ctx b.inputMap b.primitive.fitArgs with
      | error a =>
        rw [hra] at hf
        simp only [Except.error.injEq] at hf
        subst hf
        simp at hk
      | ok vals =>
        rw [hra] at hf
        dsimp only at hf
        cases hff : (sem b.primitive.name).fitF vals with
        | error c0 =>
          rw [hff] at hf
          simp only [Except.error.injEq] at hf
          subst hf
          simp only [ErrKind.execution.injEq] at hk
          subst hk
          exact ⟨fun _ => ⟨vals, rfl, hff⟩, fun hp => by simp at hp⟩
        | ok st0 => rw [hff] at hf; simp at hf
    · simp at hf
  | ok be =>
    obtain ⟨b', evs⟩ := be
    rw [hf] at h
    dsimp only at h
    obtain ⟨_, _, him, _⟩ := stepFit_ok sem mode nm b ctx b' evs hf
    cases hra : resolveArgs ctx b'.inputMap b.primitive.produceArgs with
    | error a =>
      rw [hra] at h
      simp only [Except.error.injEq] at h
      subst h
      simp at hk
    | ok vals =>
      rw [hra] at h
      dsimp only at h
      cases hp : (sem b.primitive.name).produceF b'.state vals with
      | error c0 =>
        rw [hp] at h
        simp only [Except.error.injEq] at h
        subst h
        simp only [ErrKind.execution.injEq] at hk
        subst hk
        refine ⟨fun hph => by simp at hph, fun _ => ⟨b'.state, vals, ?_, hp⟩⟩
        rw [him] at hra
        exact hra
      | ok outs => rw [hp] at h; simp at h

theorem run_ok_spec (sem : String → BlockSem) (mode : Mode) (p : MLPipeline)
    (inputs : Context) (start? : Option StartArg) (output? : Option OutputArg)
    (r : PipeResult)
    (h : MLPipeline.run sem mode p inputs start? output? = .ok r) :
    ∃ s plan rb,
      resolveStart p.blockNameList start? = .ok s ∧
      resolveOutput p.blockNameList (p.blocks.length - 1) output? = .ok plan ∧
      runBlocks sem mode
        (executedSlice p.blocks s (plan.stopIndex (p.blocks.length - 1))) inputs [] [] =
        .ok rb ∧
      extractOutput mode p plan rb.ctx rb.snaps = .ok r.output ∧
      r.ctx = rb.ctx ∧ r.trace = rb.trace ∧ r.writes = rb.writes ∧
      r.pipeline =
        { p with blocks := p.blocks.take s ++ rb.blocks ++
            p.blocks.drop (s + (executedSlice p.blocks s
              (plan.stopIndex (p.blocks.length - 1))).length) } := by
  unfold MLPipeline.run at h
  dsimp only at h
  cases hs : resolveStart p.blockNameList start? with
  | error a => rw [hs] at h; simp at h
  | ok s =>
    rw [hs] at h
    dsimp only at h
    cases ho : resolveOutput p.blockNameList (p.blocks.length - 1) output? with
    | error a => rw [ho] at h; simp at h
    | ok plan =>
      rw [ho] at h
      dsimp only at h
      cases hr : runBlocks sem mode
          (executedSlice p.blocks s (plan.stopIndex (p.blocks.length - 1))) inputs [] [] with
      | error e => rw [hr] at h; simp at h
      | ok rb =>
        rw [hr] at h
        dsimp only at h
        cases he : extractOutput mode p plan rb.ctx rb.snaps with
        | error e => rw [he] at h; simp at h
        | ok out =>
          rw [he] at h
          simp only [Except.ok.injEq] at h
          subst h
          exact ⟨s, plan, rb, rfl, rfl, hr, he, rfl, rfl, rfl, rfl⟩

theorem run_error_spec (sem : String → BlockSem) (mode : Mode) (p : MLPipeline)
    (inputs : Context) (start? : Option StartArg) (output? : Option OutputArg)
    (e : RunError)
    (h : MLPipeline.run sem mode p inputs start? output? = .error (.run e)) :
    ∃ s plan,
      resolveStart p.blockNameList start? = .ok s ∧
      resolveOutput p.blockNameList (p.blocks.length - 1) output? = .ok plan ∧
      runBlocks sem mode
        (executedSlice p.blocks s (plan.stopIndex (p.blocks.length - 1))) inputs [] [] =
        .error e := by
  unfold MLPipeline.run at h
  dsimp only at h
  cases hs : resolveStart p.blockNameList start? with
  | error a => rw [hs] at h; simp at h
  | ok s =>
    rw [hs] at h
    dsimp only at h
    cases ho : resolveOutput p.blockNameList (p.blocks.length - 1) output? with
    | error a => rw [ho] at h; simp at h
    | ok plan =>
      rw [ho] at h
      dsimp only at h
      cases hr : runBlocks sem mode
          (executedSlice p.blocks s (plan.stopIndex (p.blocks.length - 1))) inputs [] [] with
      | error e0 =>
        rw [hr] at h
        simp only [Except.error.injEq, PipelineError.run.injEq] at h
        subst h
        exact ⟨s, plan, rfl, rfl, hr⟩
      | ok rb =>
        rw [hr] at h
        dsimp only at h
        cases he : extractOutput mode p plan rb.ctx rb.snaps with
        | error e0 =>
          rw [he] at h
          exfalso
          cases plan with
          | default =>
            cases mode with
            | fit => simp [extractOutput] at he
            | predict =>
              unfold extractOutput at he
              dsimp only at he
              cases hl : p.blocks.getLast? with
              | none => rw [hl] at he; simp at he
              | some nb =>
                rw [hl] at he
                dsimp only at he
                cases hm : getAll rb.ctx (nb.2.primitive.outputs.map (remapName nb.2.outputMap)) with
                | none =>
                  rw [hm] at he
                  simp only [Except.error.injEq] at he
                  subst he
                  simp at h
                | some vs =>
                  rw [hm] at he
                  cases vs with
                  | nil => simp at he
                  | cons v vt => cases vt <;> simp at he
          | whole i => simp [extractOutput] at he
          | single i v =>
            unfold extractOutput at he
            dsimp only at he
            cases hg : ctxGet rb.ctx v with
            | some w => rw [hg] at he; simp at he
            | none =>
              rw [hg] at he
              simp only [Except.error.injEq] at he
              subst he
              simp at h
          | many i es =>
            unfold extractOutput at he
            dsimp only at he
            cases hm : captureEntries p.blockNameList rb.snaps es with
            | some ws => rw [hm] at he; simp at he
            | none =>
              rw [hm] at he
              simp only [Except.error.injEq] at he
              subst he
              simp at h
        | ok out => rw [he] at h; simp at h

/-! Lemmas about the block-naming rule. -/

theorem assignNamesGo_length (counts : List (String × Nat)) (l : List String) :
    (assignNamesGo counts l).length = l.length := by
  induction l generalizing counts with
  | nil => rfl
  | cons p rest ih => simp [assignNamesGo, ih]

theorem blockNames_length (prims : List String) :
    (blockNames prims).length = prims.length :=
  assignNamesGo_length [] prims

theorem countOcc_append (a b : List String) (q : String) :
    countOcc (a ++ b) q = countOcc a q + countOcc b q := by
  induction a with
  | nil => simp [countOcc]
  | cons x rest ih => simp [countOcc, ih]; omega

theorem countOf_ctxSet (counts : List (String × Nat)) (p q : String) (n : Nat) :
    countOf (ctxSet counts p n) q = if q = p then n else countOf counts q := by
  by_cases h : q = p
  · subst h
    simp [countOf, alookup_ctxSet_self]
  · simp [countOf, alookup_ctxSet_ne counts p q n h, h]

theorem assignNamesGo_get (l : List String) (hist : List String)
    (counts : List (String × Nat))
    (hinv : ∀ q, countOf counts q = countOcc hist q) (i : Nat)
    (hi : i < (assignNamesGo counts l).length) (hi' : i < l.length) :
    (assignNamesGo counts l).get ⟨i, hi⟩ =
      l.get ⟨i, hi'⟩ ++ "#" ++
        toString (countOcc (hist ++ l.take (i + 1)) (l.get ⟨i, hi'⟩)) := by
  induction l generalizing hist counts i with
  | nil => simp at hi'
  | cons p rest ih =>
    cases i with
    | zero =>
      simp only [assignNamesGo, List.get, List.take, countOcc_append]
      rw [hinv p]
      have h1 : countOcc [p] p = 1 := by simp [countOcc]
      rw [h1]
    | succ j =>
      have hj : j < (assignNamesGo (ctxSet counts p (countOf counts p + 1)) rest).length := by
        simpa [assignNamesGo] using hi
      have hj' : j < rest.length := by simpa using hi'
      have hrec := ih (hist ++ [p]) (ctxSet counts p (countOf counts p + 1)) ?_ j hj hj'
      · simpa [assignNamesGo, List.append_assoc] using hrec
      · intro q
        rw [countOf_ctxSet, countOcc_append]
        by_cases hq : q = p
        · subst hq
          simp [countOcc, hinv q]
        · simp [countOcc, hq, Ne.symm hq, hinv q]

theorem blockNames_get (prims : List String) (i : Nat)
    (hi : i < (blockNames prims).length) (hi' : i < prims.length) :
    (blockNames prims).get ⟨i, hi⟩ =
      prims.get ⟨i, hi'⟩ ++ "#" ++
        toString (countOcc (prims.take (i + 1)) (prims.get ⟨i, hi'⟩)) := by
  have h := assignNamesGo_get prims [] [] (fun q => rfl) i hi hi'
  simpa using h

/-! Lemmas for the hyperparameter views. -/

theorem ctxGet_of_mem_nodup (l : Context) (k : VarName) (v : Value)
    (hnd : (l.map Prod.fst).Nodup) (hmem : (k, v) ∈ l) : ctxGet l k = some v := by
  induction l with
  | nil => simp at hmem
  | cons kv rest ih =>
    obtain ⟨k0, v0⟩ := kv
    simp only [List.map_cons, List.nodup_cons] at hnd
    rcases List.mem_cons.mp hmem with h | h
    · obtain ⟨h1, h2⟩ := Prod.mk.injEq .. ▸ h
      injection h with h1 h2
      subst h1
      subst h2
      simp [ctxGet]
    · have hk : k0 ≠ k := by
        intro he
        subst he
        exact hnd.1 (by simpa using List.mem_map_of_mem Prod.fst h)
      simp [ctxGet, hk, ih hnd.2 h]

theorem ctxMerge_of_all_present (l m : Context)
    (h : ∀ kv ∈ m, ctxGet l kv.1 = some kv.2) : ctxMerge l m = l := by
  induction m with
  | nil => rfl
  | cons kv rest ih =>
    obtain ⟨k, v⟩ := kv
    show ctxMerge (ctxSet l k v) rest = l
    rw [ctxSet_of_ctxGet_eq l k v (h (k, v) (by simp))]
    exact ih (fun kv hm => h kv (by simp [hm]))

theorem ctxMerge_self (l : Context) (hnd : (l.map Prod.fst).Nodup) :
    ctxMerge l l = l :=
  ctxMerge_of_all_present l l
    (fun kv hm => ctxGet_of_mem_nodup l kv.1 kv.2 hnd hm)

theorem lastVal_eq_none_of_not_mem (m : List (VarName × Value)) (k : VarName)
    (h : k ∉ m.map Prod.fst) : lastVal m k = none := by
  induction m with
  | nil => rfl
  | cons kv rest ih =>
    obtain ⟨k0, v0⟩ := kv
    simp only [List.map_cons, List.mem_cons, not_or] at h
    simp [lastVal, ih h.2, Ne.symm h.1]

theorem ctxGet_ctxMerge_not_mem (l m : Context) (k : VarName)
    (h : k ∉ m.map Prod.fst) : ctxGet (ctxMerge l m) k = ctxGet l k := by
  rw [ctxGet_ctxMerge, lastVal_eq_none_of_not_mem m k h]

theorem alookup_map_of_nodup {α : Type} (blocks : List (String × MLBlock))
    (f : MLBlock → α) (nm : String) (b : MLBlock)
    (hmem : (nm, b) ∈ blocks) (hnd : (blocks.map Prod.fst).Nodup) :
    alookup (blocks.map (fun nb => (nb.1, f nb.2))) nm = some (f b) := by
  induction blocks with
  | nil => simp at hmem
  | cons nb0 rest ih =>
    obtain ⟨n0, b0⟩ := nb0
    simp only [List.map_cons, List.nodup_cons] at hnd
    rcases List.mem_cons.mp hmem with h | h
    · injection h with h1 h2
      subst h1
      subst h2
      simp [alookup]
    · have hk : n0 ≠ nm := by
        intro he
        subst he
        exact hnd.1 (by simpa using List.mem_map_of_mem Prod.fst h)
      simp [alookup, hk, ih h hnd.2]

theorem alookup_map_key {α : Type} (blocks : List (String × MLBlock))
    (f : String → MLBlock → α) (nm : String) :
    alookup (blocks.map (fun nb => (nb.1, f nb.1 nb.2))) nm =
      (alookup blocks nm).map (f nm) := by
  induction blocks with
  | nil => simp [alookup]
  | cons nb0 rest ih =>
    obtain ⟨n0, b0⟩ := nb0
    by_cases h : n0 = nm
    · subst h
      simp [alookup]
    · simp [alookup, h, ih]

theorem map_eq_self_of_mem {α : Type} (l : List α) (f : α → α)
    (h : ∀ x ∈ l, f x = x) : l.map f = l := by
  induction l with
  | nil => rfl
  | cons x rest ih =>
    simp only [List.map_cons]
    rw [h x (by simp), ih (fun y hy => h y (by simp [hy]))]

theorem flatFor_append (a b : List ((String × VarName) × Value)) (n : String) :
    flatFor (a ++ b) n = flatFor a n ++ flatFor b n := by
  simp [flatFor]

theorem flatFor_own (hyp : List (VarName × Value)) (n : String) :
    flatFor (hyp.map (fun kv => ((n, kv.1), kv.2))) n = hyp := by
  induction hyp with
  | nil => rfl
  | cons kv rest ih => simp [flatFor, List.filterMap_cons] at ih ⊢; simp [ih]

theorem flatFor_other (hyp : List (VarName × Value)) (m n : String) (h : m ≠ n) :
    flatFor (hyp.map (fun kv => ((m, kv.1), kv.2))) n = [] := by
  induction hyp with
  | nil => rfl
  | cons kv rest ih =>
    simp only [List.map_cons, flatFor, List.filterMap_cons] at ih ⊢
    simp only [h, if_false, if_neg h]
    exact ih

theorem flatFor_flatten_none (blocks : List (String × MLBlock)) (nm : String)
    (h : nm ∉ blocks.map Prod.fst) :
    flatFor (blocks.flatMap (fun nb =>
      nb.2.hyperparameters.map (fun kv => ((nb.1, kv.1), kv.2)))) nm = [] := by
  induction blocks with
  | nil => rfl
  | cons nb0 rest ih =>
    obtain ⟨n0, b0⟩ := nb0
    simp only [List.map_cons, List.mem_cons, not_or] at h
    simp only [List.flatMap_cons, flatFor_append,
      flatFor_other b0.hyperparameters n0 nm (Ne.symm h.1), List.nil_append]
    exact ih h.2

theorem flatFor_flatten (blocks : List (String × MLBlock)) (nm : String) (b : MLBlock)
    (hmem : (nm, b) ∈ blocks) (hnd : (blocks.map Prod.fst).Nodup) :
    flatFor (blocks.flatMap (fun nb =>
      nb.2.hyperparameters.map (fun kv => ((nb.1, kv.1), kv.2)))) nm =
      b.hyperparameters := by
  induction blocks with
  | nil => simp at hmem
  | cons nb0 rest ih =>
    obtain ⟨n0, b0⟩ := nb0
    simp only [List.map_cons, List.nodup_cons] at hnd
    rcases List.mem_cons.mp hmem with h | h
    · injection h with h1 h2
      subst h1
      subst h2
      simp only [List.flatMap_cons, flatFor_append, flatFor_own]
      rw [flatFor_flatten_none rest nm hnd.1]
      simp
    · have hk : n0 ≠ nm := by
        intro he
        subst he
        exact hnd.1 (by simpa using List.mem_map_of_mem Prod.fst h)
      simp only [List.flatMap_cons, flatFor_append,
        flatFor_other b0.hyperparameters n0 nm hk, List.nil_append]
      exact ih h hnd.2

/-! Claim theorems. -/

/-- C1: during `MLPipeline.fit`, every reached block has its fit phase
invoked (when the block declares one) and then its produce phase, in block
order; during `MLPipeline.predict` the identical traversal runs only the
produce phase of each block and never invokes any block's fit. -/
theorem C1_fit_produce_traversal :
    (∀ (sem : String → BlockSem) (p : MLPipeline) (ins : Context)
       (st : Option StartArg) (out : Option OutputArg) (r : PipeResult),
       MLPipeline.fit sem p ins st out = .ok r →
       ∃ s plan,
         resolveStart p.blockNameList st = .ok s ∧
         resolveOutput p.blockNameList (p.blocks.length - 1) out = .ok plan ∧
         r.trace = expectedTrace Mode.fit
           (executedSlice p.blocks s (plan.stopIndex (p.blocks.length - 1)))) ∧
    (∀ (sem : String → BlockSem) (p : MLPipeline) (ins : Context)
       (st : Option StartArg) (out : Option OutputArg) (r : PipeResult),
       MLPipeline.predict sem p ins st out = .ok r →
       (∃ s plan,
         resolveStart p.blockNameList st = .ok s ∧
         resolveOutput p.blockNameList (p.blocks.length - 1) out = .ok plan ∧
         r.trace = expectedTrace Mode.predict
           (executedSlice p.blocks s (plan.stopIndex (p.blocks.length - 1)))) ∧
       ∀ ev ∈ r.trace, ev.phase = Phase.produce) := by
  constructor
  · intro sem p ins st out r h
    obtain ⟨s, plan, rb, hs, ho, hr, _, _, htr, _, _⟩ :=
      run_ok_spec sem Mode.fit p ins st out r h
    obtain ⟨htrace, _⟩ := runBlocks_ok_spec sem Mode.fit _ ins [] [] rb hr
    exact ⟨s, plan, hs, ho, by rw [htr, htrace]; simp⟩
  · intro sem p ins st out r h
    obtain ⟨s, plan, rb, hs, ho, hr, _, _, htr, _, _⟩ :=
      run_ok_spec sem Mode.predict p ins st out r h
    obtain ⟨htrace, _⟩ := runBlocks_ok_spec sem Mode.predict _ ins [] [] rb hr
    have htr' : r.trace = expectedTrace Mode.predict
        (executedSlice p.blocks s (plan.stopIndex (p.blocks.length - 1))) := by
      rw [htr, htrace]
      simp
    refine ⟨⟨s, plan, hs, ho, htr'⟩, ?_⟩
    intro ev hev
    rw [htr'] at hev
    simp only [expectedTrace, List.mem_flatMap] at hev
    obtain ⟨nb, _, hmem⟩ := hev
    simp [expectedEvents] at hmem
    rw [hmem]

/-- C2: whenever a block produces an output under a context variable name,
the value overwrites any prior value under that name, so after any prefix of
the traversal the context maps each name to the value of its most recent
writer (falling back to the seeded inputs when no block wrote it). -/
theorem C2_latest_writer_wins :
    (∀ (sem : String → BlockSem) (mode : Mode) (bs : List (String × MLBlock))
       (ctx : Context) (tr : List Event) (ws : List (VarName × Value)) (r : RunOk),
       runBlocks sem mode bs ctx tr ws = .ok r →
       ∃ ws', r.writes = ws ++ ws' ∧
         ∀ n, ctxGet r.ctx n =
           (match lastVal ws' n with
            | some v => some v
            | none => ctxGet ctx n)) ∧
    (∀ (sem : String → BlockSem) (mode : Mode) (p : MLPipeline) (ins : Context)
       (st : Option StartArg) (out : Option OutputArg) (r : PipeResult),
       MLPipeline.run sem mode p ins st out = .ok r →
       ∀ n, ctxGet r.ctx n =
         (match lastVal r.writes n with
          | some v => some v
          | none => ctxGet ins n)) := by
  constructor
  · intro sem mode bs ctx tr ws r h
    obtain ⟨_, _, ws', hws, hget⟩ := runBlocks_ok_spec sem mode bs ctx tr ws r h
    exact ⟨ws', hws, hget⟩
  · intro sem mode p ins st out r h
    obtain ⟨s, plan, rb, _, _, hr, _, hctx, _, hws, _⟩ :=
      run_ok_spec sem mode p ins st out r h
    obtain ⟨_, _, ws', hws', hget⟩ := runBlocks_ok_spec sem mode _ ins [] [] rb hr
    intro n
    rw [hctx, hws, hws']
    simpa using hget n

/-- C5: with `output_` omitted, `MLPipeline.fit` returns nothing, and
`MLPipeline.predict` returns the single named output of the last block,
unwrapped when that block declares exactly one output. -/
theorem C5_default_return :
    (∀ (sem : String → BlockSem) (p : MLPipeline) (ins : Context)
       (st : Option StartArg) (r : PipeResult),
       MLPipeline.fit sem p ins st none = .ok r → r.output = RunOutput.nothing) ∧
    (∀ (sem : String → BlockSem) (p : MLPipeline) (ins : Context)
       (st : Option StartArg) (r : PipeResult) (nm : String) (b : MLBlock) (o : VarName),
       p.blocks.getLast? = some (nm, b) →
       b.primitive.outputs = [o] →
       MLPipeline.predict sem p ins st none = .ok r →
       ∃ v, ctxGet r.ctx (remapName b.outputMap o) = some v ∧
         r.output = RunOutput.single v) := by
  constructor
  · intro sem p ins st r h
    obtain ⟨s, plan, rb, _, ho, _, hext, _, _, _, _⟩ :=
      run_ok_spec sem Mode.fit p ins st none r h
    have hplan : plan = OutPlan.default := by
      simpa [resolveOutput] using ho.symm
    subst hplan
    simp only [extractOutput, Except.ok.injEq] at hext
    exact hext.symm
  · intro sem p ins st r nm b o hlast houts h
    obtain ⟨s, plan, rb, _, ho, hr, hext, hctx, _, _, _⟩ :=
      run_ok_spec sem Mode.predict p ins st none r h
    have hplan : plan = OutPlan.default := by
      simpa [resolveOutput] using ho.symm
    subst hplan
    unfold extractOutput at hext
    dsimp only at hext
    rw [hlast] at hext
    dsimp only at hext
    rw [houts] at hext
    simp only [List.map_cons, List.map_nil] at hext
    cases hg : ctxGet rb.ctx (remapName b.outputMap o) with
    | none =>
      rw [show getAll rb.ctx [remapName b.outputMap o] = none by
        simp [getAll, hg]] at hext
      simp at hext
    | some v =>
      rw [show getAll rb.ctx [remapName b.outputMap o] = some [v] by
        simp [getAll, hg]] at hext
      simp only [Except.ok.injEq] at hext
      exact ⟨v, by rw [hctx]; exact hg, hext.symm⟩

/-- C6: pipeline construction assigns each block the instance name
`{primitive-name}#{n}`, `n` being the 1-based count of occurrences of that
primitive so far; in particular `[A, A, B]` yields `[A#1, A#2, B#1]`. -/
theorem C6_block_naming :
    (∀ prims : List String, (blockNames prims).length = prims.length) ∧
    (∀ (prims : List String) (i : Nat) (hi : i < (blockNames prims).length)
       (hi' : i < prims.length),
       (blockNames prims).get ⟨i, hi⟩ =
         prims.get ⟨i, hi'⟩ ++ "#" ++
           toString (countOcc (prims.take (i + 1)) (prims.get ⟨i, hi'⟩))) ∧
    (∀ prims : List Primitive,
       (buildPipeline prims).blockNameList = blockNames (prims.map Primitive.name)) ∧
    blockNames ["A", "A", "B"] = ["A#1", "A#2", "B#1"] := by
  refine ⟨blockNames_length, blockNames_get, ?_, by decide⟩
  intro prims
  unfold buildPipeline MLPipeline.blockNameList
  dsimp only
  rw [List.map_map]
  have hlen : (blockNames (prims.map Primitive.name)).length ≤ prims.length := by
    rw [blockNames_length]
    simp
  have hcomp : (Prod.fst ∘ fun np : String × Primitive =>
      (np.1, (⟨np.2, [], np.2.defaultHyperparameters, np.2.defaultTunables,
        [], []⟩ : MLBlock))) = Prod.fst := by
    funext x
    rfl
  rw [hcomp]
  exact List.map_fst_zip _ _ hlen

/-- Witness for C1 at the concrete pipeline `pEx`. -/
theorem C1_witness :
    (∃ s plan,
       resolveStart pEx.blockNameList none = .ok s ∧
       resolveOutput pEx.blockNameList (pEx.blocks.length - 1) none = .ok plan ∧
       (okOr (MLPipeline.fit semEx pEx insEx none none)).trace =
         expectedTrace Mode.fit
           (executedSlice pEx.blocks s (plan.stopIndex (pEx.blocks.length - 1)))) ∧
    ((∃ s plan,
       resolveStart pEx.blockNameList none = .ok s ∧
       resolveOutput pEx.blockNameList (pEx.blocks.length - 1) none = .ok plan ∧
       (okOr (MLPipeline.predict semEx pEx insEx none none)).trace =
         expectedTrace Mode.predict
           (executedSlice pEx.blocks s (plan.stopIndex (pEx.blocks.length - 1)))) ∧
     ∀ ev ∈ (okOr (MLPipeline.predict semEx pEx insEx none none)).trace,
       ev.phase = Phase.produce) :=
  ⟨C1_fit_produce_traversal.1 semEx pEx insEx none none _ (by decide),
   C1_fit_produce_traversal.2 semEx pEx insEx none none _ (by decide)⟩

/-- Witness for C2 at the concrete pipeline `pEx`. -/
theorem C2_witness :
    (∃ ws', (runOkOr (runBlocks semEx Mode.fit pEx.blocks insEx [] [])).writes =
        [] ++ ws' ∧
      ∀ n, ctxGet (runOkOr (runBlocks semEx Mode.fit pEx.blocks insEx [] [])).ctx n =
        (match lastVal ws' n with
         | some v => some v
         | none => ctxGet insEx n)) ∧
    ∀ n, ctxGet (okOr (MLPipeline.run semEx Mode.fit pEx insEx none none)).ctx n =
      (match lastVal (okOr (MLPipeline.run semEx Mode.fit pEx insEx none none)).writes n with
       | some v => some v
       | none => ctxGet insEx n) :=
  ⟨C2_latest_writer_wins.1 semEx Mode.fit pEx.blocks insEx [] [] _ (by decide),
   C2_latest_writer_wins.2 semEx Mode.fit pEx insEx none none _ (by decide)⟩

/-- Witness for C5 at the concrete pipeline `pEx`. -/
theorem C5_witness :
    (okOr (MLPipeline.fit semEx pEx insEx none none)).output = RunOutput.nothing ∧
    ∃ v, ctxGet (okOr (MLPipeline.predict semEx pEx [("X", 10)] none none)).ctx
        (remapName (⟨primC, [], [], [], [], []⟩ : MLBlock).outputMap "y") = some v ∧
      (okOr (MLPipeline.predict semEx pEx [("X", 10)] none none)).output =
        RunOutput.single v :=
  ⟨C5_default_return.1 semEx pEx insEx none _ (by decide),
   C5_default_return.2 semEx pEx [("X", 10)] none _ "C#1" _ "y"
     (by decide) (by decide) (by decide)⟩

/-- Witness for C6 at the concrete primitive list `[A, A, B]`. -/
theorem C6_witness :
    (blockNames ["A", "A", "B"]).get ⟨1, by decide⟩ =
      (["A", "A", "B"].get ⟨1, by decide⟩) ++ "#" ++
        toString (countOcc (["A", "A", "B"].take 2) (["A", "A", "B"].get ⟨1, by decide⟩)) :=
  C6_block_naming.2.1 ["A", "A", "B"] 1 (by decide) (by decide)

/-! Helper lemmas for the resumability theorem. -/

theorem run_ok_intro (sem : String → BlockSem) (mode : Mode) (p : MLPipeline)
    (inputs : Context) (start? : Option StartArg) (output? : Option OutputArg)
    (s : Nat) (plan : OutPlan) (rb : RunOk) (out : RunOutput)
    (hs : resolveStart p.blockNameList start? = .ok s)
    (ho : resolveOutput p.blockNameList (p.blocks.length - 1) output? = .ok plan)
    (hr : runBlocks sem mode
      (executedSlice p.blocks s (plan.stopIndex (p.blocks.length - 1))) inputs [] [] =
      .ok rb)
    (he : extractOutput mode p plan rb.ctx rb.snaps = .ok out) :
    MLPipeline.run sem mode p inputs start? output? =
      .ok ⟨{ p with blocks := p.blocks.take s ++ rb.blocks ++
          p.blocks.drop (s + (executedSlice p.blocks s
            (plan.stopIndex (p.blocks.length - 1))).length) },
        rb.ctx, rb.trace, rb.writes, out⟩ := by
  unfold MLPipeline.run
  dsimp only
  rw [hs]
  dsimp only
  rw [ho]
  dsimp only
  rw [hr]
  dsimp only
  rw [he]

theorem extractOutput_default_sig (mode : Mode) (p p' : MLPipeline) (ctx : Context)
    (snaps snaps' : List (String × Context))
    (h : p.blocks.map blockSig = p'.blocks.map blockSig) :
    extractOutput mode p OutPlan.default ctx snaps =
      extractOutput mode p' OutPlan.default ctx snaps' := by
  cases mode with
  | fit => rfl
  | predict =>
    unfold extractOutput
    dsimp only
    have h1 : (p.blocks.getLast?).map blockSig = (p'.blocks.getLast?).map blockSig := by
      rw [← List.getLast?_map, ← List.getLast?_map, h]
    cases hl : p.blocks.getLast? with
    | none =>
      cases hl' : p'.blocks.getLast? with
      | none => rfl
      | some nb =>
        rw [hl, hl'] at h1
        simp at h1
    | some nb =>
      cases hl' : p'.blocks.getLast? with
      | none =>
        rw [hl, hl'] at h1
        simp at h1
      | some nb' =>
        rw [hl, hl'] at h1
        simp only [Option.map_some', Option.some.injEq, blockSig, Prod.mk.injEq] at h1
        obtain ⟨_, hprim, _, hout, _, _⟩ := h1
        dsimp only
        rw [hprim, hout]

theorem run_resume (sem : String → BlockSem) (mode : Mode) (p : MLPipeline)
    (ins : Context) (k : Nat) (hk : k < p.blocks.length) (rFull : PipeResult)
    (h : MLPipeline.run sem mode p ins none none = .ok rFull) :
    ∃ r1 r2,
      MLPipeline.run sem mode p ins none (some (OutputArg.idx k)) = .ok r1 ∧
      r1.output = RunOutput.whole r1.ctx ∧
      MLPipeline.run sem mode r1.pipeline r1.ctx (some (StartArg.idx (k + 1))) none =
        .ok r2 ∧
      r2.pipeline = rFull.pipeline ∧ r2.ctx = rFull.ctx ∧
      r2.output = rFull.output := by
  obtain ⟨s, plan, rbF, hs, ho, hrF, heF, hctxF, htrF, hwsF, hpipF⟩ :=
    run_ok_spec sem mode p ins none none rFull h
  have hs0 : s = 0 := by
    simp only [resolveStart, Except.ok.injEq] at hs
    exact hs.symm
  have hpd : plan = OutPlan.default := by
    simp only [resolveOutput, Except.ok.injEq] at ho
    exact ho.symm
  subst hs0
  subst hpd
  have hpos : 0 < p.blocks.length := Nat.lt_of_le_of_lt (Nat.zero_le k) hk
  have hslice : executedSlice p.blocks 0
      (OutPlan.stopIndex (p.blocks.length - 1) OutPlan.default) = p.blocks := by
    unfold executedSlice OutPlan.stopIndex
    rw [List.drop_zero, Nat.sub_zero, Nat.sub_add_cancel hpos]
    exact List.take_length p.blocks
  rw [hslice] at hrF
  have hk1 : k + 1 ≤ p.blocks.length := Nat.succ_le_of_lt hk
  have hsplit := runBlocks_append sem mode (p.blocks.take (k + 1))
    (p.blocks.drop (k + 1)) ins [] []
  rw [List.take_append_drop, hrF] at hsplit
  cases h1 : runBlocks sem mode (p.blocks.take (k + 1)) ins [] [] with
  | error e => rw [h1] at hsplit; simp at hsplit
  | ok rb1 =>
    rw [h1] at hsplit
    dsimp only at hsplit
    cases h2x : runBlocks sem mode (p.blocks.drop (k + 1)) rb1.ctx rb1.trace rb1.writes with
    | error e => rw [h2x] at hsplit; simp at hsplit
    | ok rb2x =>
      rw [h2x] at hsplit
      simp only [Except.ok.injEq] at hsplit
      have hacc := runBlocks_acc sem mode (p.blocks.drop (k + 1)) rb1.ctx rb1.trace rb1.writes
      rw [h2x] at hacc
      cases h2 : runBlocks sem mode (p.blocks.drop (k + 1)) rb1.ctx [] [] with
      | error e => rw [h2] at hacc; simp at hacc
      | ok rb2 =>
        rw [h2] at hacc
        simp only [Except.ok.injEq] at hacc
        have hsig1 := (runBlocks_ok_spec sem mode _ ins [] [] rb1 h1).2.1
        have hlen1 : rb1.blocks.length = k + 1 := by
          have hc := congrArg List.length hsig1
          simp only [List.length_map, List.length_take] at hc
          rw [hc]
          exact Nat.min_eq_left hk1
        have hslice1 : executedSlice p.blocks 0
            (OutPlan.stopIndex (p.blocks.length - 1) (OutPlan.whole k)) =
            p.blocks.take (k + 1) := by
          unfold executedSlice OutPlan.stopIndex
          rw [List.drop_zero, Nat.sub_zero]
        have hcall1 := run_ok_intro sem mode p ins none (some (OutputArg.idx k))
          0 (OutPlan.whole k) rb1 (RunOutput.whole rb1.ctx) rfl rfl
          (by rw [hslice1]; exact h1) rfl
        set p1blocks := rb1.blocks ++ p.blocks.drop (k + 1) with hp1b
        have hp1simp : p.blocks.take 0 ++ rb1.blocks ++
            p.blocks.drop (0 + (executedSlice p.blocks 0
              (OutPlan.stopIndex (p.blocks.length - 1) (OutPlan.whole k))).length) =
            p1blocks := by
          rw [hslice1]
          simp only [List.take_zero, List.nil_append, Nat.zero_add,
            List.length_take, Nat.min_eq_left hk1]
        rw [hp1simp] at hcall1
        have hlenp1 : p1blocks.length = p.blocks.length := by
          rw [hp1b]
          simp only [List.length_append, hlen1, List.length_drop]
          omega
        have hdrop1 : p1blocks.drop (k + 1) = p.blocks.drop (k + 1) := by
          rw [hp1b, ← hlen1, List.drop_left]
        have htake1 : p1blocks.take (k + 1) = rb1.blocks := by
          rw [hp1b, ← hlen1, List.take_left]
        have hslice2 : executedSlice p1blocks (k + 1)
            (OutPlan.stopIndex (p1blocks.length - 1) OutPlan.default) =
            p.blocks.drop (k + 1) := by
          unfold executedSlice OutPlan.stopIndex
          rw [hdrop1]
          have harith : p1blocks.length - 1 + 1 - (k + 1) =
              (p.blocks.drop (k + 1)).length := by
            rw [hlenp1, List.length_drop]
            omega
          rw [harith]
          exact List.take_length _
        have hctx2F : rb2.ctx = rbF.ctx := by
          rw [hsplit, hacc]
        have hr2 : runBlocks sem mode
            (executedSlice ({ p with blocks := p1blocks } : MLPipeline).blocks (k + 1)
              (OutPlan.stopIndex ((({ p with blocks := p1blocks } : MLPipeline).blocks).length - 1)
                OutPlan.default)) rb1.ctx [] [] = .ok rb2 := by
          show runBlocks sem mode (executedSlice p1blocks (k + 1)
            (OutPlan.stopIndex (p1blocks.length - 1) OutPlan.default)) rb1.ctx [] [] = .ok rb2
          rw [hslice2]
          exact h2
        have hext2 : extractOutput mode ({ p with blocks := p1blocks }) OutPlan.default
            rb2.ctx rb2.snaps = .ok rFull.output := by
          have hsigeq : ({ p with blocks := p1blocks } : MLPipeline).blocks.map blockSig =
              p.blocks.map blockSig := by
            show p1blocks.map blockSig = p.blocks.map blockSig
            rw [hp1b, List.map_append, hsig1, ← List.map_append, List.take_append_drop]
          rw [extractOutput_default_sig mode _ p _ rb2.snaps rbF.snaps hsigeq, hctx2F]
          exact heF
        have hcall2 := run_ok_intro sem mode ({ p with blocks := p1blocks }) rb1.ctx
          (some (StartArg.idx (k + 1))) none (k + 1) OutPlan.default rb2 rFull.output
          rfl rfl hr2 hext2
        refine ⟨_, _, hcall1, rfl, hcall2, ?_, hctx2F.trans hctxF.symm, rfl⟩
        rw [hpipF]
        have hb1 : ({ p with blocks := p1blocks } : MLPipeline).blocks = p1blocks := rfl
        simp only [hb1, MLPipeline.mk.injEq, true_and]
        rw [hslice2, htake1, hslice]
        have hdropall : p1blocks.drop (k + 1 + (p.blocks.drop (k + 1)).length) = [] := by
          apply List.drop_eq_nil_of_le
          rw [hlenp1, List.length_drop]
          omega
        rw [hdropall]
        rw [hsplit, hacc]
        simp

/-- C3: for every valid split index `k`, running with `output_ = k` (which
returns the whole context) and feeding the returned context into a run with
`start_ = k + 1` yields a final pipeline, context and output identical to a
single uninterrupted run, both for `fit` and for `predict`. -/
theorem C3_resumability :
    ∀ (sem : String → BlockSem) (p : MLPipeline) (ins : Context) (k : Nat),
      k < p.blocks.length →
      (∀ rFull, MLPipeline.fit sem p ins none none = .ok rFull →
        ∃ r1 r2,
          MLPipeline.fit sem p ins none (some (OutputArg.idx k)) = .ok r1 ∧
          r1.output = RunOutput.whole r1.ctx ∧
          MLPipeline.fit sem r1.pipeline r1.ctx (some (StartArg.idx (k + 1))) none =
            .ok r2 ∧
          r2.pipeline = rFull.pipeline ∧ r2.ctx = rFull.ctx ∧
          r2.output = rFull.output) ∧
      (∀ rFull, MLPipeline.predict sem p ins none none = .ok rFull →
        ∃ r1 r2,
          MLPipeline.predict sem p ins none (some (OutputArg.idx k)) = .ok r1 ∧
          r1.output = RunOutput.whole r1.ctx ∧
          MLPipeline.predict sem r1.pipeline r1.ctx (some (StartArg.idx (k + 1))) none =
            .ok r2 ∧
          r2.pipeline = rFull.pipeline ∧ r2.ctx = rFull.ctx ∧
          r2.output = rFull.output) :=
  fun sem p ins k hk =>
    ⟨fun rFull h => run_resume sem Mode.fit p ins k hk rFull h,
     fun rFull h => run_resume sem Mode.predict p ins k hk rFull h⟩

/-- Witness for C3 at the concrete pipeline `pEx`, split index 1. -/
theorem C3_witness :
    (∃ r1 r2,
       MLPipeline.fit semEx pEx insEx none (some (OutputArg.idx 1)) = .ok r1 ∧
       r1.output = RunOutput.whole r1.ctx ∧
       MLPipeline.fit semEx r1.pipeline r1.ctx (some (StartArg.idx 2)) none = .ok r2 ∧
       r2.pipeline = (okOr (MLPipeline.fit semEx pEx insEx none none)).pipeline ∧
       r2.ctx = (okOr (MLPipeline.fit semEx pEx insEx none none)).ctx ∧
       r2.output = (okOr (MLPipeline.fit semEx pEx insEx none none)).output) ∧
    (∃ r1 r2,
       MLPipeline.predict semEx pEx insEx none (some (OutputArg.idx 1)) = .ok r1 ∧
       r1.output = RunOutput.whole r1.ctx ∧
       MLPipeline.predict semEx r1.pipeline r1.ctx (some (StartArg.idx 2)) none = .ok r2 ∧
       r2.pipeline = (okOr (MLPipeline.predict semEx pEx insEx none none)).pipeline ∧
       r2.ctx = (okOr (MLPipeline.predict semEx pEx insEx none none)).ctx ∧
       r2.output = (okOr (MLPipeline.predict semEx pEx insEx none none)).output) :=
  ⟨(C3_resumability semEx pEx insEx 1 (by decide)).1 _ (by decide),
   (C3_resumability semEx pEx insEx 1 (by decide)).2 _ (by decide)⟩

/-- C7: a failure in a block's fit or produce phase aborts the whole call
with no further block executed; the error is annotated with the failing
block's name and phase and carries the wrapped component's own failure as
its cause, and the context is left exactly as mutated by the completed
blocks. -/
theorem C7_error_abort :
    (∀ (sem : String → BlockSem) (mode : Mode) (p : MLPipeline) (ins : Context)
       (st : Option StartArg) (out : Option OutputArg) (e : RunError),
       MLPipeline.run sem mode p ins st out = .error (.run e) →
       ∃ s plan,
         resolveStart p.blockNameList st = .ok s ∧
         resolveOutput p.blockNameList (p.blocks.length - 1) out = .ok plan ∧
         runBlocks sem mode
           (executedSlice p.blocks s (plan.stopIndex (p.blocks.length - 1))) ins [] [] =
           .error e) ∧
    (∀ (sem : String → BlockSem) (mode : Mode) (bs : List (String × MLBlock))
       (ctx : Context) (tr : List Event) (ws : List (VarName × Value)) (e : RunError),
       runBlocks sem mode bs ctx tr ws = .error e →
       ∃ k, ∃ hk : k < bs.length, ∃ r : RunOk,
         runBlocks sem mode (bs.take k) ctx tr ws = .ok r ∧
         e.block = (bs.get ⟨k, hk⟩).1 ∧
         e.ctx = r.ctx ∧
         ∃ evs, e.trace = r.trace ++ evs ∧ (∀ ev ∈ evs, ev.block = e.block) ∧
           stepBlock sem mode (bs.get ⟨k, hk⟩).1 (bs.get ⟨k, hk⟩).2 r.ctx =
             .error ⟨e.phase, e.kind, evs⟩) ∧
    (∀ (sem : String → BlockSem) (mode : Mode) (nm : String) (b : MLBlock)
       (ctx : Context) (se : StepErr) (c : Nat),
       stepBlock sem mode nm b ctx = .error se → se.kind = ErrKind.execution c →
       (se.phase = Phase.fit →
         ∃ vals, resolveArgs ctx b.inputMap b.primitive.fitArgs = .ok vals ∧
           (sem b.primitive.name).fitF vals = .error c) ∧
       (se.phase = Phase.produce →
         ∃ st vals, resolveArgs ctx b.inputMap b.primitive.produceArgs = .ok vals ∧
           (sem b.primitive.name).produceF st vals = .error c)) :=
  ⟨fun sem mode p ins st out e h => run_error_spec sem mode p ins st out e h,
   fun sem mode bs ctx tr ws e h => runBlocks_error_spec sem mode bs ctx tr ws e h,
   fun sem mode nm b ctx se c h hk => stepBlock_execution_cause sem mode nm b ctx se c h hk⟩

/-- Witness for C7: primitive `B` of `pEx` raises (cause 42) under `semErr`. -/
theorem C7_witness :
    (∃ s plan,
       resolveStart pEx.blockNameList none = .ok s ∧
       resolveOutput pEx.blockNameList (pEx.blocks.length - 1) none = .ok plan ∧
       runBlocks semErr Mode.fit
         (executedSlice pEx.blocks s (plan.stopIndex (pEx.blocks.length - 1)))
         insEx [] [] =
         .error (runErrOf (MLPipeline.run semErr Mode.fit pEx insEx none none))) ∧
    (∃ k, ∃ hk : k < pEx.blocks.length, ∃ r : RunOk,
       runBlocks semErr Mode.fit (pEx.blocks.take k) insEx [] [] = .ok r ∧
       (runErrOr (runBlocks semErr Mode.fit pEx.blocks insEx [] [])).block =
         (pEx.blocks.get ⟨k, hk⟩).1 ∧
       (runErrOr (runBlocks semErr Mode.fit pEx.blocks insEx [] [])).ctx = r.ctx ∧
       ∃ evs, (runErrOr (runBlocks semErr Mode.fit pEx.blocks insEx [] [])).trace =
           r.trace ++ evs ∧
         (∀ ev ∈ evs, ev.block =
           (runErrOr (runBlocks semErr Mode.fit pEx.blocks insEx [] [])).block) ∧
         stepBlock semErr Mode.fit (pEx.blocks.get ⟨k, hk⟩).1 (pEx.blocks.get ⟨k, hk⟩).2
             r.ctx =
           .error ⟨(runErrOr (runBlocks semErr Mode.fit pEx.blocks insEx [] [])).phase,
             (runErrOr (runBlocks semErr Mode.fit pEx.blocks insEx [] [])).kind, evs⟩) ∧
    ((stepErrOr (stepBlock semErr Mode.fit "B#1" blockBEx [("X", 13)])).phase =
        Phase.fit →
      ∃ vals, resolveArgs [("X", 13)] blockBEx.inputMap blockBEx.primitive.fitArgs =
          .ok vals ∧
        (semErr blockBEx.primitive.name).fitF vals = .error 42) ∧
    ((stepErrOr (stepBlock semErr Mode.fit "B#1" blockBEx [("X", 13)])).phase =
        Phase.produce →
      ∃ st vals, resolveArgs [("X", 13)] blockBEx.inputMap blockBEx.primitive.produceArgs =
          .ok vals ∧
        (semErr blockBEx.primitive.name).produceF st vals = .error 42) :=
  ⟨C7_error_abort.1 semErr Mode.fit pEx insEx none none _ (by decide),
   C7_error_abort.2.1 semErr Mode.fit pEx.blocks insEx [] [] _ (by decide),
   C7_error_abort.2.2 semErr Mode.fit "B#1" blockBEx [("X", 13)] _ 42
     (by decide) (by decide)⟩

/-- C8: `set_hyperparameters (get_hyperparameters ...)` is a no-op in both
the nested and the flat form, and a partial assignment modifies only the
named hyperparameters, leaving every other value unmodified. -/
theorem C8_hyperparameter_roundtrip :
    ∀ p : MLPipeline,
      p.blockNameList.Nodup →
      (∀ nb ∈ p.blocks, ((nb.2.hyperparameters).map Prod.fst).Nodup) →
      MLPipeline.set_hyperparameters p (MLPipeline.get_hyperparameters p) = p ∧
      MLPipeline.set_hyperparameters_flat p (MLPipeline.get_hyperparameters_flat p) = p ∧
      ∀ vals n k, k ∉ ((alookup vals n).getD []).map Prod.fst →
        getHyperValue (MLPipeline.set_hyperparameters p vals) n k =
          getHyperValue p n k := by
  intro p hnd hkeys
  refine ⟨?_, ?_, ?_⟩
  · unfold MLPipeline.set_hyperparameters
    have hmap : p.blocks.map (fun nb =>
        (nb.1, nb.2.setHyper ((alookup (MLPipeline.get_hyperparameters p) nb.1).getD []))) =
        p.blocks := by
      apply map_eq_self_of_mem
      intro nb hmem
      have hl : alookup (MLPipeline.get_hyperparameters p) nb.1 =
          some nb.2.hyperparameters := by
        unfold MLPipeline.get_hyperparameters
        exact alookup_map_of_nodup p.blocks (fun b => b.hyperparameters) nb.1 nb.2 hmem hnd
      rw [hl]
      unfold MLBlock.setHyper
      rw [Option.getD_some, ctxMerge_self nb.2.hyperparameters (hkeys nb hmem)]
    rw [hmap]
  · unfold MLPipeline.set_hyperparameters_flat
    have hmap : p.blocks.map (fun nb =>
        (nb.1, nb.2.setHyper (flatFor (MLPipeline.get_hyperparameters_flat p) nb.1))) =
        p.blocks := by
      apply map_eq_self_of_mem
      intro nb hmem
      have hl : flatFor (MLPipeline.get_hyperparameters_flat p) nb.1 =
          nb.2.hyperparameters := by
        unfold MLPipeline.get_hyperparameters_flat
        exact flatFor_flatten p.blocks nb.1 nb.2 hmem hnd
      rw [hl]
      unfold MLBlock.setHyper
      rw [ctxMerge_self nb.2.hyperparameters (hkeys nb hmem)]
    rw [hmap]
  · intro vals n k hk
    unfold getHyperValue MLPipeline.get_hyperparameters MLPipeline.set_hyperparameters
    dsimp only
    rw [List.map_map]
    have hcomp : ((fun nb : String × MLBlock => (nb.1, nb.2.hyperparameters)) ∘
        fun nb : String × MLBlock =>
          (nb.1, nb.2.setHyper ((alookup vals nb.1).getD []))) =
        fun nb : String × MLBlock =>
          (nb.1, ctxMerge nb.2.hyperparameters ((alookup vals nb.1).getD [])) := by
      funext nb
      rfl
    rw [hcomp]
    rw [alookup_map_key p.blocks
      (fun nm b => ctxMerge b.hyperparameters ((alookup vals nm).getD [])) n]
    rw [alookup_map_key p.blocks (fun _ b => b.hyperparameters) n]
    cases hb : alookup p.blocks n with
    | none => rfl
    | some b =>
      simp only [Option.map_some']
      exact ctxGet_ctxMerge_not_mem b.hyperparameters ((alookup vals n).getD []) k hk

/-- Witness for C8 at the concrete pipeline `pEx`. -/
theorem C8_witness :
    MLPipeline.set_hyperparameters pEx (MLPipeline.get_hyperparameters pEx) = pEx ∧
    MLPipeline.set_hyperparameters_flat pEx (MLPipeline.get_hyperparameters_flat pEx) =
      pEx ∧
    ∀ vals n k, k ∉ ((alookup vals n).getD []).map Prod.fst →
      getHyperValue (MLPipeline.set_hyperparameters pEx vals) n k =
        getHyperValue pEx n k :=
  C8_hyperparameter_roundtrip pEx (by decide) (by decide)

theorem roundtrip_table {α : Type} (reg : String → Primitive) (p : MLPipeline)
    (hnames : p.blockNameList = blockNames p.primitives)
    (hnd : p.blockNameList.Nodup) (F : MLBlock → α)
    (hB : ∀ (nm prim : String) (v : α),
      alookup (p.blocks.map (fun nb => (nb.1, F nb.2))) nm = some v →
      F (buildBlock reg (MLPipeline.to_dict p) nm prim) = v) :
    (MLPipeline.from_dict reg (MLPipeline.to_dict p)).blocks.map
        (fun nb => (nb.1, F nb.2)) =
      p.blocks.map (fun nb => (nb.1, F nb.2)) := by
  have hnd' : (p.blocks.map Prod.fst).Nodup := hnd
  have hlenp : p.blocks.length = p.primitives.length := by
    have hc := congrArg List.length hnames
    simpa [MLPipeline.blockNameList, blockNames_length] using hc
  have hzipnames : blockNames (MLPipeline.to_dict p).primitives =
      p.blocks.map Prod.fst := by
    have hpr : (MLPipeline.to_dict p).primitives = p.primitives := rfl
    rw [hpr, ← hnames]
    rfl
  unfold MLPipeline.from_dict
  dsimp only
  rw [hzipnames, List.map_map,
    show (MLPipeline.to_dict p).primitives = p.primitives from rfl]
  apply List.ext_get
  · simp [List.length_zip, hlenp]
  · intro i h1 h2
    simp only [List.length_map, List.length_zip, List.length_map, hlenp,
      Nat.min_self] at h1
    simp only [List.length_map] at h2
    have hi : i < p.blocks.length := h2
    simp only [List.get_eq_getElem, List.getElem_map, List.getElem_zip,
      Function.comp]
    have hlook : alookup (p.blocks.map (fun nb => (nb.1, F nb.2)))
        (p.blocks.get ⟨i, hi⟩).1 = some (F (p.blocks.get ⟨i, hi⟩).2) :=
      alookup_map_of_nodup p.blocks F _ _ (List.get_mem p.blocks i hi) hnd'
    simp only [List.get_eq_getElem] at hlook
    rw [hB _ _ _ hlook]

/-- C9: serialization round trip —
`MLPipeline.from_dict (P.to_dict ()) |>.to_dict ()` equals `P.to_dict ()`,
so the reconstructed pipeline's structure, hyperparameter values and
tunable-hyperparameter metadata exactly match the original. -/
theorem C9_dict_roundtrip :
    ∀ (reg : String → Primitive) (p : MLPipeline), p.WF →
      MLPipeline.to_dict (MLPipeline.from_dict reg (MLPipeline.to_dict p)) =
        MLPipeline.to_dict p := by
  intro reg p hWF
  obtain ⟨hnames, hnd⟩ := hWF
  have hprim : (MLPipeline.from_dict reg (MLPipeline.to_dict p)).primitives =
      p.primitives := rfl
  have hinit : (MLPipeline.from_dict reg (MLPipeline.to_dict p)).initParams =
      p.initParams := rfl
  show PipelineDict.mk _ _ _ _ _ _ = PipelineDict.mk _ _ _ _ _ _
  simp only [PipelineDict.mk.injEq]
  refine ⟨hprim, hinit, ?_, ?_, ?_, ?_⟩
  · exact roundtrip_table reg p hnames hnd (fun b => b.hyperparameters)
      (fun nm prim v h => by
        show (alookup (MLPipeline.to_dict p).hyperparameters nm).getD
          (reg prim).defaultHyperparameters = v
        rw [show (MLPipeline.to_dict p).hyperparameters =
          p.blocks.map (fun nb => (nb.1, nb.2.hyperparameters)) from rfl, h]
        rfl)
  · exact roundtrip_table reg p hnames hnd (fun b => b.tunable)
      (fun nm prim v h => by
        show (alookup (MLPipeline.to_dict p).tunable_hyperparameters nm).getD
          (reg prim).defaultTunables = v
        rw [show (MLPipeline.to_dict p).tunable_hyperparameters =
          p.blocks.map (fun nb => (nb.1, nb.2.tunable)) from rfl, h]
        rfl)
  · exact roundtrip_table reg p hnames hnd (fun b => b.inputMap)
      (fun nm prim v h => by
        show (alookup (MLPipeline.to_dict p).input_names nm).getD [] = v
        rw [show (MLPipeline.to_dict p).input_names =
          p.blocks.map (fun nb => (nb.1, nb.2.inputMap)) from rfl, h]
        rfl)
  · exact roundtrip_table reg p hnames hnd (fun b => b.outputMap)
      (fun nm prim v h => by
        show (alookup (MLPipeline.to_dict p).output_names nm).getD [] = v
        rw [show (MLPipeline.to_dict p).output_names =
          p.blocks.map (fun nb => (nb.1, nb.2.outputMap)) from rfl, h]
        rfl)

/-- Witness for C9 at the concrete pipeline `pEx`, with a registry mapping
the example names back to their descriptors. -/
theorem C9_witness :
    MLPipeline.to_dict (MLPipeline.from_dict
        (fun n => if n = "A" then primA else if n = "B" then primB else primC)
        (MLPipeline.to_dict pEx)) =
      MLPipeline.to_dict pEx :=
  C9_dict_roundtrip (fun n => if n = "A" then primA else if n = "B" then primB else primC)
    pEx ⟨by decide, by decide⟩

/-! Lemmas and theorems for the output-specification claims. -/

theorem resolveOutput_str (names : List String) (lastIdx : Nat) (s : String)
    (sp : OutSpec) (h : parseOutputString names lastIdx s = .ok sp) :
    resolveOutput names lastIdx (some (OutputArg.str s)) =
      .ok (match sp with
           | OutSpec.wholeCtx i => OutPlan.whole i
           | OutSpec.var i v => OutPlan.single i v) := by
  cases sp with
  | wholeCtx i =>
    unfold resolveOutput
    dsimp only
    rw [h]
  | var i v =>
    unfold resolveOutput
    dsimp only
    rw [h]

theorem resolveOutput_str_err (names : List String) (lastIdx : Nat) (s e : String)
    (h : parseOutputString names lastIdx s = .error e) :
    resolveOutput names lastIdx (some (OutputArg.str s)) = .error e := by
  unfold resolveOutput
  dsimp only
  rw [h]

theorem splitLastDotAux_mem (l : List Char) (pq : List Char × List Char)
    (h : splitLastDotAux l = some pq) : '.' ∈ l := by
  induction l generalizing pq with
  | nil => simp [splitLastDotAux] at h
  | cons c rest ih =>
    simp only [splitLastDotAux] at h
    cases hrec : splitLastDotAux rest with
    | some pq2 => exact List.mem_cons_of_mem c (ih pq2 hrec)
    | none =>
      rw [hrec] at h
      by_cases hc : c = '.'
      · simp [hc]
      · simp [hc] at h

/-- C10 (amended): a dot-free string that is not a block name is treated as
a plain context variable, extracted after the last block is produced; a
dotted string that is neither a block name itself nor has a block name
before its last dot raises a `ValueError`. -/
theorem C10_string_output_forms :
    (∀ (sem : String → BlockSem) (mode : Mode) (p : MLPipeline) (ins : Context)
       (s : String) (r : PipeResult),
       indexOfName p.blockNameList s = none → hasDot s = false →
       parseOutputString p.blockNameList (p.blocks.length - 1) s =
         .ok (OutSpec.var (p.blocks.length - 1) s) ∧
       (MLPipeline.run sem mode p ins none (some (OutputArg.str s)) = .ok r →
         r.trace = expectedTrace mode (executedSlice p.blocks 0 (p.blocks.length - 1)) ∧
         ∃ v, ctxGet r.ctx s = some v ∧ r.output = RunOutput.single v)) ∧
    (∀ (sem : String → BlockSem) (mode : Mode) (p : MLPipeline) (ins : Context)
       (s pre suf : String),
       indexOfName p.blockNameList s = none →
       splitLastDot s = some (pre, suf) →
       indexOfName p.blockNameList pre = none →
       parseOutputString p.blockNameList (p.blocks.length - 1) s = .error s ∧
       MLPipeline.run sem mode p ins none (some (OutputArg.str s)) =
         .error (.valueError s)) := by
  constructor
  · intro sem mode p ins s r hidx hdot
    have hparse : parseOutputString p.blockNameList (p.blocks.length - 1) s =
        .ok (OutSpec.var (p.blocks.length - 1) s) := by
      unfold parseOutputString
      rw [hidx, hdot]
      rfl
    refine ⟨hparse, fun h => ?_⟩
    obtain ⟨s0, plan, rb, hs, ho, hr, hext, hctx, htr, _, _⟩ :=
      run_ok_spec sem mode p ins none (some (OutputArg.str s)) r h
    have hs0 : s0 = 0 := by
      simp only [resolveStart, Except.ok.injEq] at hs
      exact hs.symm
    subst hs0
    rw [resolveOutput_str _ _ _ _ hparse] at ho
    simp only [Except.ok.injEq] at ho
    subst ho
    obtain ⟨htrace, _⟩ := runBlocks_ok_spec sem mode _ ins [] [] rb hr
    refine ⟨?_, ?_⟩
    · rw [htr, htrace]
      simp [OutPlan.stopIndex]
    · unfold extractOutput at hext
      dsimp only at hext
      cases hg : ctxGet rb.ctx s with
      | none => rw [hg] at hext; simp at hext
      | some v =>
        rw [hg] at hext
        simp only [Except.ok.injEq] at hext
        exact ⟨v, by rw [hctx]; exact hg, hext.symm⟩
  · intro sem mode p ins s pre suf hidx hsplit hpre
    have hdot : hasDot s = true := by
      unfold splitLastDot at hsplit
      cases hsa : splitLastDotAux s.toList with
      | none => rw [hsa] at hsplit; simp at hsplit
      | some pq =>
        unfold hasDot
        simpa using splitLastDotAux_mem s.toList pq hsa
    have hparse : parseOutputString p.blockNameList (p.blocks.length - 1) s =
        .error s := by
      unfold parseOutputString
      rw [hidx]
      simp only [hdot, if_true]
      rw [hsplit]
      dsimp only
      rw [hpre]
    refine ⟨hparse, ?_⟩
    unfold MLPipeline.run
    dsimp only
    rw [show resolveStart p.blockNameList none = .ok 0 from rfl]
    dsimp only
    rw [resolveOutput_str_err _ _ _ _ hparse]

/-- Counterexample for C10 as stated: a block whose name itself contains a
dot.  The dotted-string premise of the claim holds (the part before the
last dot is no block name), yet the call succeeds with the whole context
instead of raising a `ValueError`, because an exact block-name match takes
precedence. -/
theorem C10_counterexample :
    hasDot "lib.Prim#1" = true ∧
    splitLastDot "lib.Prim#1" = some ("lib", "Prim#1") ∧
    indexOfName pDot.blockNameList "lib" = none ∧
    parseOutputString pDot.blockNameList 0 "lib.Prim#1" = .ok (OutSpec.wholeCtx 0) ∧
    MLPipeline.predict semEx pDot [("X", 7)] none (some (OutputArg.str "lib.Prim#1")) =
      .ok (okOr (MLPipeline.predict semEx pDot [("X", 7)] none
        (some (OutputArg.str "lib.Prim#1")))) ∧
    (okOr (MLPipeline.predict semEx pDot [("X", 7)] none
      (some (OutputArg.str "lib.Prim#1")))).output =
      RunOutput.whole (okOr (MLPipeline.predict semEx pDot [("X", 7)] none
        (some (OutputArg.str "lib.Prim#1")))).ctx := by
  refine ⟨by decide, by decide, by decide, by decide, by decide, by decide⟩

/-- Witness for C10 at the concrete pipeline `pEx`. -/
theorem C10_witness :
    (parseOutputString pEx.blockNameList (pEx.blocks.length - 1) "y" =
       .ok (OutSpec.var (pEx.blocks.length - 1) "y") ∧
     (MLPipeline.run semEx Mode.predict pEx insEx none (some (OutputArg.str "y")) =
        .ok (okOr (MLPipeline.run semEx Mode.predict pEx insEx none
          (some (OutputArg.str "y")))) →
       (okOr (MLPipeline.run semEx Mode.predict pEx insEx none
         (some (OutputArg.str "y")))).trace =
         expectedTrace Mode.predict (executedSlice pEx.blocks 0 (pEx.blocks.length - 1)) ∧
       ∃ v, ctxGet (okOr (MLPipeline.run semEx Mode.predict pEx insEx none
           (some (OutputArg.str "y")))).ctx "y" = some v ∧
         (okOr (MLPipeline.run semEx Mode.predict pEx insEx none
           (some (OutputArg.str "y")))).output = RunOutput.single v)) ∧
    (parseOutputString pEx.blockNameList (pEx.blocks.length - 1) "nosuch.X" =
       .error "nosuch.X" ∧
     MLPipeline.run semEx Mode.fit pEx insEx none (some (OutputArg.str "nosuch.X")) =
       .error (.valueError "nosuch.X")) :=
  ⟨C10_string_output_forms.1 semEx Mode.predict pEx insEx "y" _ (by decide) (by decide),
   C10_string_output_forms.2 semEx Mode.fit pEx insEx "nosuch.X" "nosuch" "X"
     (by decide) (by decide) (by decide)⟩

theorem foldl_max_init_le (l : List OutSpec) (a : Nat) :
    a ≤ l.foldl (fun m sp => max m sp.stopIndex) a := by
  induction l generalizing a with
  | nil => exact Nat.le_refl a
  | cons sp rest ih =>
    exact Nat.le_trans (Nat.le_max_left a sp.stopIndex) (ih (max a sp.stopIndex))

theorem foldl_max_mem_le (l : List OutSpec) (a : Nat) (sp : OutSpec)
    (h : sp ∈ l) : sp.stopIndex ≤ l.foldl (fun m sp => max m sp.stopIndex) a := by
  induction l generalizing a with
  | nil => simp at h
  | cons sp0 rest ih =>
    rcases List.mem_cons.mp h with h0 | h0
    · subst h0
      exact Nat.le_trans (Nat.le_max_right a sp.stopIndex)
        (foldl_max_init_le rest (max a sp.stopIndex))
    · exact ih (max a sp0.stopIndex) h0

theorem resolveOutput_strs (names : List String) (lastIdx : Nat) (l : List String)
    (specs : List OutSpec) (es : List (Nat × VarName))
    (hp : parseAll names lastIdx l = .ok specs) (hv : entriesOf specs = some es) :
    resolveOutput names lastIdx (some (OutputArg.strs l)) =
      .ok (OutPlan.many (specs.foldl (fun m sp => max m sp.stopIndex) 0) es) := by
  unfold resolveOutput
  dsimp only
  rw [hp]
  dsimp only
  rw [hv]

theorem entriesOf_mem (specs : List OutSpec) (es : List (Nat × VarName))
    (h : entriesOf specs = some es) :
    ∀ (j i : Nat) (v : VarName), es.get? j = some (i, v) →
      OutSpec.var i v ∈ specs := by
  induction specs generalizing es with
  | nil =>
    simp only [entriesOf, Option.some.injEq] at h
    subst h
    intro j i v hj
    simp at hj
  | cons sp rest ih =>
    simp only [entriesOf] at h
    cases sp with
    | wholeCtx i0 => simp at h
    | var i0 v0 =>
      cases hrec : entriesOf rest with
      | none => rw [hrec] at h; simp at h
      | some es0 =>
        rw [hrec] at h
        simp only [Option.some.injEq] at h
        subst h
        intro j i v hj
        cases j with
        | zero =>
          simp only [List.get?] at hj
          injection hj with hj
          injection hj with h1 h2
          subst h1
          subst h2
          exact List.mem_cons_self _ _
        | succ j' =>
          exact List.mem_cons_of_mem _ (ih es0 hrec j' i v (by simpa using hj))

theorem captureEntries_get (names : List String) (snaps : List (String × Context))
    (es : List (Nat × VarName)) (ws : List Value)
    (h : captureEntries names snaps es = some ws) :
    ws.length = es.length ∧
    ∀ (j i : Nat) (v : VarName), es.get? j = some (i, v) →
      ∃ bn c, names.get? i = some bn ∧ alookup snaps bn = some c ∧
        ctxGet c v = ws.get? j := by
  induction es generalizing ws with
  | nil =>
    simp only [captureEntries, Option.some.injEq] at h
    subst h
    exact ⟨rfl, fun j i v hj => by simp at hj⟩
  | cons e rest ih =>
    simp only [captureEntries] at h
    cases hn : names.get? e.1 with
    | none => rw [hn] at h; simp at h
    | some bn =>
      rw [hn] at h
      dsimp only at h
      cases ha : alookup snaps bn with
      | none => rw [ha] at h; simp at h
      | some c =>
        rw [ha] at h
        dsimp only at h
        cases hg : ctxGet c e.2 with
        | none => rw [hg] at h; simp at h
        | some v0 =>
          rw [hg] at h
          dsimp only at h
          cases hrec : captureEntries names snaps rest with
          | none => rw [hrec] at h; simp at h
          | some vs =>
            rw [hrec] at h
            simp only [Option.some.injEq] at h
            subst h
            obtain ⟨hlen, hpt⟩ := ih vs hrec
            refine ⟨by simp [hlen], ?_⟩
            intro j i v hj
            cases j with
            | zero =>
              simp only [List.get?] at hj
              injection hj with hj
              have h1 : e.1 = i := by rw [hj]
              have h2 : e.2 = v := by rw [hj]
              exact ⟨bn, c, h1 ▸ hn, ha, h2 ▸ hg⟩
            | succ j' =>
              simpa using hpt j' i v (by simpa using hj)

theorem runBlocks_capture (sem : String → BlockSem) (mode : Mode)
    (bs : List (String × MLBlock)) (ctx : Context) (tr : List Event)
    (ws : List (VarName × Value)) (r : RunOk)
    (h : runBlocks sem mode bs ctx tr ws = .ok r)
    (hnd : (bs.map Prod.fst).Nodup) (i : Nat) (hi : i < bs.length) :
    ∃ rp, runBlocks sem mode (bs.take (i + 1)) ctx tr ws = .ok rp ∧
      alookup r.snaps (bs.get ⟨i, hi⟩).1 = some rp.ctx := by
  induction bs generalizing ctx tr ws r i with
  | nil => simp at hi
  | cons nb rest ih =>
    obtain ⟨nm, b⟩ := nb
    simp only [runBlocks] at h
    cases hs : stepBlock sem mode nm b ctx with
    | error e => rw [hs] at h; simp at h
    | ok st =>
      rw [hs] at h
      dsimp only at h
      cases hr : runBlocks sem mode rest st.ctx (tr ++ st.events) (ws ++ st.writes) with
      | error e => rw [hr] at h; simp at h
      | ok r2 =>
        rw [hr] at h
        simp only [Except.ok.injEq] at h
        subst h
        simp only [List.map_cons, List.nodup_cons] at hnd
        cases i with
        | zero =>
          refine ⟨⟨[(nm, st.block)], st.ctx, tr ++ st.events, ws ++ st.writes,
            [(nm, st.ctx)]⟩, ?_, ?_⟩
          · simp [runBlocks, hs]
          · simp [alookup]
        | succ j =>
          have hj : j < rest.length := by simpa using hi
          obtain ⟨rp, hrp, hlook⟩ :=
            ih st.ctx (tr ++ st.events) (ws ++ st.writes) r2 hr hnd.2 j hj
          have hne : nm ≠ (rest.get ⟨j, hj⟩).1 := by
            intro he
            exact hnd.1 (he ▸ (by
              simpa using List.mem_map_of_mem Prod.fst (List.get_mem rest j hj)))
          refine ⟨⟨(nm, st.block) :: rp.blocks, rp.ctx, rp.trace, rp.writes,
            (nm, st.ctx) :: rp.snaps⟩, ?_, ?_⟩
          · simp only [List.take_succ_cons, runBlocks, hs]
            rw [hrp]
          · show alookup ((nm, st.ctx) :: r2.snaps) (rest.get ⟨j, hj⟩).1 = some rp.ctx
            simp only [alookup, hne, if_neg hne]
            exact hlook

/-- C4 (amended): an integer `output_` stops after that zero-based block and
returns the entire context; a block's exact name behaves as its index; a
`{block-name}.{variable-name}` string runs up through that block and returns
that single variable; a list of such strings runs up through the furthest
block any entry references (the last step needed, not the block of the last
list entry) and returns, in the requested order, each named variable's
value as captured from the context right after its named block produced —
the value the prefix run up through that block yields, not the final
context value. -/
theorem C4_output_specification :
    (∀ (sem : String → BlockSem) (mode : Mode) (p : MLPipeline) (ins : Context)
       (i : Nat) (r : PipeResult),
       MLPipeline.run sem mode p ins none (some (OutputArg.idx i)) = .ok r →
       r.output = RunOutput.whole r.ctx ∧
       r.trace = expectedTrace mode (executedSlice p.blocks 0 i)) ∧
    (∀ (sem : String → BlockSem) (mode : Mode) (p : MLPipeline) (ins : Context)
       (s : String) (i : Nat) (r : PipeResult),
       indexOfName p.blockNameList s = some i →
       MLPipeline.run sem mode p ins none (some (OutputArg.str s)) = .ok r →
       r.output = RunOutput.whole r.ctx ∧
       r.trace = expectedTrace mode (executedSlice p.blocks 0 i)) ∧
    (∀ (sem : String → BlockSem) (mode : Mode) (p : MLPipeline) (ins : Context)
       (s : String) (i : Nat) (v : VarName) (r : PipeResult),
       parseOutputString p.blockNameList (p.blocks.length - 1) s =
         .ok (OutSpec.var i v) →
       MLPipeline.run sem mode p ins none (some (OutputArg.str s)) = .ok r →
       r.trace = expectedTrace mode (executedSlice p.blocks 0 i) ∧
       ∃ w, ctxGet r.ctx v = some w ∧ r.output = RunOutput.single w) ∧
    (∀ (sem : String → BlockSem) (mode : Mode) (p : MLPipeline) (ins : Context)
       (l : List String) (specs : List OutSpec) (es : List (Nat × VarName))
       (r : PipeResult),
       p.blockNameList.Nodup →
       parseAll p.blockNameList (p.blocks.length - 1) l = .ok specs →
       entriesOf specs = some es →
       (∀ sp ∈ specs, sp.stopIndex ≤
         specs.foldl (fun m sp => max m sp.stopIndex) 0) ∧
       (MLPipeline.run sem mode p ins none (some (OutputArg.strs l)) = .ok r →
         r.trace = expectedTrace mode (executedSlice p.blocks 0
           (specs.foldl (fun m sp => max m sp.stopIndex) 0)) ∧
         ∃ ws, r.output = RunOutput.many ws ∧ ws.length = es.length ∧
           ∀ (j i : Nat) (v : VarName), es.get? j = some (i, v) →
             ∃ rp, runBlocks sem mode (executedSlice p.blocks 0 i) ins [] [] =
                 .ok rp ∧
               ctxGet rp.ctx v = ws.get? j)) := by
  have hstart : ∀ (p : MLPipeline) (s0 : Nat),
      resolveStart p.blockNameList none = .ok s0 → s0 = 0 := by
    intro p s0 hs
    simp only [resolveStart, Except.ok.injEq] at hs
    exact hs.symm
  refine ⟨?_, ?_, ?_, ?_⟩
  · intro sem mode p ins i r h
    obtain ⟨s0, plan, rb, hs, ho, hr, hext, hctx, htr, _, _⟩ :=
      run_ok_spec sem mode p ins none (some (OutputArg.idx i)) r h
    have hs0 := hstart p s0 hs
    subst hs0
    have hplan : plan = OutPlan.whole i := by
      simp only [resolveOutput, Except.ok.injEq] at ho
      exact ho.symm
    subst hplan
    obtain ⟨htrace, _⟩ := runBlocks_ok_spec sem mode _ ins [] [] rb hr
    simp only [extractOutput, Except.ok.injEq] at hext
    exact ⟨by rw [← hext, hctx], by rw [htr, htrace]; simp [OutPlan.stopIndex]⟩
  · intro sem mode p ins s i r hidx h
    obtain ⟨s0, plan, rb, hs, ho, hr, hext, hctx, htr, _, _⟩ :=
      run_ok_spec sem mode p ins none (some (OutputArg.str s)) r h
    have hs0 := hstart p s0 hs
    subst hs0
    have hparse : parseOutputString p.blockNameList (p.blocks.length - 1) s =
        .ok (OutSpec.wholeCtx i) := by
      unfold parseOutputString
      rw [hidx]
    rw [resolveOutput_str _ _ _ _ hparse] at ho
    simp only [Except.ok.injEq] at ho
    have hplan : plan = OutPlan.whole i := ho.symm
    subst hplan
    obtain ⟨htrace, _⟩ := runBlocks_ok_spec sem mode _ ins [] [] rb hr
    simp only [extractOutput, Except.ok.injEq] at hext
    exact ⟨by rw [← hext, hctx], by rw [htr, htrace]; simp [OutPlan.stopIndex]⟩
  · intro sem mode p ins s i v r hparse h
    obtain ⟨s0, plan, rb, hs, ho, hr, hext, hctx, htr, _, _⟩ :=
      run_ok_spec sem mode p ins none (some (OutputArg.str s)) r h
    have hs0 := hstart p s0 hs
    subst hs0
    rw [resolveOutput_str _ _ _ _ hparse] at ho
    simp only [Except.ok.injEq] at ho
    have hplan : plan = OutPlan.single i v := ho.symm
    subst hplan
    obtain ⟨htrace, _⟩ := runBlocks_ok_spec sem mode _ ins [] [] rb hr
    refine ⟨by rw [htr, htrace]; simp [OutPlan.stopIndex], ?_⟩
    unfold extractOutput at hext
    dsimp only at hext
    cases hg : ctxGet rb.ctx v with
    | none => rw [hg] at hext; simp at hext
    | some w =>
      rw [hg] at hext
      simp only [Except.ok.injEq] at hext
      exact ⟨w, by rw [hctx]; exact hg, hext.symm⟩
  · intro sem mode p ins l specs es r hnd hp hv
    refine ⟨fun sp hm => foldl_max_mem_le specs 0 sp hm, fun h => ?_⟩
    obtain ⟨s0, plan, rb, hs, ho, hr, hext, hctx, htr, _, _⟩ :=
      run_ok_spec sem mode p ins none (some (OutputArg.strs l)) r h
    have hs0 := hstart p s0 hs
    subst hs0
    rw [resolveOutput_strs _ _ _ _ _ hp hv] at ho
    simp only [Except.ok.injEq] at ho
    have hplan : plan = OutPlan.many
        (specs.foldl (fun m sp => max m sp.stopIndex) 0) es := ho.symm
    subst hplan
    obtain ⟨htrace, _⟩ := runBlocks_ok_spec sem mode _ ins [] [] rb hr
    refine ⟨by rw [htr, htrace]; simp [OutPlan.stopIndex], ?_⟩
    unfold extractOutput at hext
    dsimp only at hext
    cases hcap : captureEntries p.blockNameList rb.snaps es with
    | none => rw [hcap] at hext; simp at hext
    | some vals =>
      rw [hcap] at hext
      simp only [Except.ok.injEq] at hext
      obtain ⟨hlen, hpt⟩ := captureEntries_get p.blockNameList rb.snaps es vals hcap
      refine ⟨vals, hext.symm, hlen, ?_⟩
      intro j i v hj
      obtain ⟨bn, c, hbn, hsnap, hcv⟩ := hpt j i v hj
      have hilen : i < p.blocks.length := by
        have := (List.get?_eq_some.mp hbn).1
        simpa [MLPipeline.blockNameList] using this
      set stop := specs.foldl (fun m sp => max m sp.stopIndex) 0 with hstopdef
      have histop : i ≤ stop := by
        have hm := entriesOf_mem specs es hv j i v hj
        have := foldl_max_mem_le specs 0 (OutSpec.var i v) hm
        simpa [OutSpec.stopIndex] using this
      have hslice : executedSlice p.blocks 0 (OutPlan.stopIndex (p.blocks.length - 1)
          (OutPlan.many stop es)) = p.blocks.take (stop + 1) := by
        unfold executedSlice OutPlan.stopIndex
        rw [List.drop_zero, Nat.sub_zero]
      rw [hslice] at hr
      have hislice : i < (p.blocks.take (stop + 1)).length := by
        simp only [List.length_take]
        omega
      have hndslice : ((p.blocks.take (stop + 1)).map Prod.fst).Nodup := by
        rw [List.map_take]
        exact List.Nodup.sublist (List.take_sublist _ _) hnd
      obtain ⟨rp, hrp, hlook⟩ := runBlocks_capture sem mode
        (p.blocks.take (stop + 1)) ins [] [] rb hr hndslice i hislice
      have hgettake : ((p.blocks.take (stop + 1)).get ⟨i, hislice⟩) =
          p.blocks.get ⟨i, hilen⟩ := by
        simp [List.get_eq_getElem, List.getElem_take]
      have hbn' : bn = (p.blocks.get ⟨i, hilen⟩).1 := by
        have hmap : p.blockNameList.get? i = (p.blocks.get? i).map Prod.fst := by
          simp [MLPipeline.blockNameList, List.get?_map]
        rw [hmap] at hbn
        have hgi : p.blocks.get? i = some (p.blocks.get ⟨i, hilen⟩) := by
          rw [List.get?_eq_get hilen]
        rw [hgi] at hbn
        simp only [Option.map_some', Option.some.injEq] at hbn
        exact hbn.symm
      rw [hgettake, ← hbn'] at hlook
      rw [hlook] at hsnap
      simp only [Option.some.injEq] at hsnap
      have htaketake : (p.blocks.take (stop + 1)).take (i + 1) =
          p.blocks.take (i + 1) := by
        rw [List.take_take]
        congr 1
        omega
      have hsl : executedSlice p.blocks 0 i = p.blocks.take (i + 1) := by
        unfold executedSlice
        rw [List.drop_zero, Nat.sub_zero]
      rw [htaketake] at hrp
      refine ⟨rp, by rw [hsl]; exact hrp, ?_⟩
      rw [hsnap]
      exact hcv

/-- Counterexample for C4 as stated: with the list
`["C#1.y", "A#1.X"]` the last entry references block index 0 (`A#1`), so
the claim confines execution to the one-block slice `[A#1]`; the engine
nevertheless produces `C#1` (the furthest block referenced by the list). -/
theorem C4_counterexample :
    parseOutputString pEx.blockNameList (pEx.blocks.length - 1) "A#1.X" =
      .ok (OutSpec.var 0 "X") ∧
    (executedSlice pEx.blocks 0 0).map Prod.fst = ["A#1"] ∧
    MLPipeline.fit semEx pEx insEx none (some (OutputArg.strs ["C#1.y", "A#1.X"])) =
      .ok (okOr (MLPipeline.fit semEx pEx insEx none
        (some (OutputArg.strs ["C#1.y", "A#1.X"])))) ∧
    (⟨"C#1", Phase.produce⟩ : Event) ∈
      (okOr (MLPipeline.fit semEx pEx insEx none
        (some (OutputArg.strs ["C#1.y", "A#1.X"])))).trace ∧
    "C#1" ∉ (executedSlice pEx.blocks 0 0).map Prod.fst := by
  refine ⟨by decide, by decide, by decide, by decide, by decide⟩

/-- Witness for C4 at the concrete pipeline `pEx`. -/
theorem C4_witness :
    ((okOr (MLPipeline.run semEx Mode.fit pEx insEx none
        (some (OutputArg.idx 1)))).output =
      RunOutput.whole (okOr (MLPipeline.run semEx Mode.fit pEx insEx none
        (some (OutputArg.idx 1)))).ctx ∧
     (okOr (MLPipeline.run semEx Mode.fit pEx insEx none
        (some (OutputArg.idx 1)))).trace =
      expectedTrace Mode.fit (executedSlice pEx.blocks 0 1)) ∧
    ((okOr (MLPipeline.run semEx Mode.fit pEx insEx none
        (some (OutputArg.str "B#1")))).output =
      RunOutput.whole (okOr (MLPipeline.run semEx Mode.fit pEx insEx none
        (some (OutputArg.str "B#1")))).ctx ∧
     (okOr (MLPipeline.run semEx Mode.fit pEx insEx none
        (some (OutputArg.str "B#1")))).trace =
      expectedTrace Mode.fit (executedSlice pEx.blocks 0 1)) ∧
    ((okOr (MLPipeline.run semEx Mode.fit pEx insEx none
        (some (OutputArg.str "B#1.X")))).trace =
      expectedTrace Mode.fit (executedSlice pEx.blocks 0 1) ∧
     ∃ w, ctxGet (okOr (MLPipeline.run semEx Mode.fit pEx insEx none
         (some (OutputArg.str "B#1.X")))).ctx "X" = some w ∧
       (okOr (MLPipeline.run semEx Mode.fit pEx insEx none
         (some (OutputArg.str "B#1.X")))).output = RunOutput.single w) ∧
    ((∀ sp ∈ [OutSpec.var 2 "y", OutSpec.var 0 "X"], sp.stopIndex ≤
       [OutSpec.var 2 "y", OutSpec.var 0 "X"].foldl
         (fun m sp => max m sp.stopIndex) 0) ∧
     ((okOr (MLPipeline.run semEx Mode.fit pEx insEx none
         (some (OutputArg.strs ["C#1.y", "A#1.X"])))).trace =
       expectedTrace Mode.fit (executedSlice pEx.blocks 0
         ([OutSpec.var 2 "y", OutSpec.var 0 "X"].foldl
           (fun m sp => max m sp.stopIndex) 0)) ∧
      ∃ ws, (okOr (MLPipeline.run semEx Mode.fit pEx insEx none
          (some (OutputArg.strs ["C#1.y", "A#1.X"])))).output = RunOutput.many ws ∧
        ws.length =
          ([(2, "y"), (0, "X")] : List (Nat × VarName)).length ∧
        ∀ (j i : Nat) (v : VarName),
          ([(2, "y"), (0, "X")] : List (Nat × VarName)).get? j = some (i, v) →
          ∃ rp, runBlocks semEx Mode.fit (executedSlice pEx.blocks 0 i)
              insEx [] [] = .ok rp ∧
            ctxGet rp.ctx v = ws.get? j)) :=
  ⟨C4_output_specification.1 semEx Mode.fit pEx insEx 1 _ (by decide),
   C4_output_specification.2.1 semEx Mode.fit pEx insEx "B#1" 1 _ (by decide) (by decide),
   C4_output_specification.2.2.1 semEx Mode.fit pEx insEx "B#1.X" 1 "X" _
     (by decide) (by decide),
   by
     have h := C4_output_specification.2.2.2 semEx Mode.fit pEx insEx
       ["C#1.y", "A#1.X"] [OutSpec.var 2 "y", OutSpec.var 0 "X"]
       [(2, "y"), (0, "X")]
       (okOr (MLPipeline.run semEx Mode.fit pEx insEx none
         (some (OutputArg.strs ["C#1.y", "A#1.X"]))))
       (by decide) (by decide) (by decide)
     exact ⟨h.1, h.2 (by decide)⟩⟩

end MLBlocks
